import Mathlib

/-!
Shallow embedding of the trajectory-tracking core of `thunderfish/tracker.py`
(functions `first_level_fish_sorting`, `exclude_fishes`, `detect_rises` /
`detect_single_rise`, `cut_at_rises`, `combine_fishes`, and the
`min_occure_time` computation of `fish_tracker`).

Modelling conventions:
* A trajectory ("fish") is a `List (Option ℚ)`; `none` models the NaN slots
  the Python code uses for absent samples, `some q` a measured frequency.
* Python floats are modelled by `ℚ`.  Comparisons against NaN (which are
  `False` in Python / numpy) are modelled by comparisons on `Option ℚ` that
  return `false` when either side is `none`.
* Operations that raise an `IndexError` in Python (indexing an empty array)
  are modelled with `Option`: a `none` result means the Python code raises.
* `np.argsort` is modelled as a stable sort of the index list (ties resolved
  by index order).
* The time axis is assumed to have a non-zero spacing `Δt = t₁ - t₀`
  (the data model requires a strictly increasing time axis), so the
  detections-per-minute factor `dpm = 60 / Δt` is an ordinary rational.
-/

unseal Rat.add Rat.sub Rat.mul Rat.inv

set_option maxRecDepth 40000

namespace Thunderfish

/-- A trajectory: one `Option ℚ` per timestep, `none` = NaN (absent). -/
abbrev Fish := List (Option ℚ)

/-- Number of valid (non-NaN) samples of a fish:
`len(fish[~np.isnan(fish)])` in the Python code. -/
def countValid (f : Fish) : ℕ := (f.filter Option.isSome).length

/-- Indices at which a fish is valid: `np.arange(len(fish))[~np.isnan(fish)]`. -/
def validIdx (f : Fish) : List ℕ :=
  (List.range f.length).filter (fun i => (f.getD i none).isSome)

/-- Total count of valid samples over a collection of fishes. -/
def totalValid (fs : List Fish) : ℕ := (fs.map countValid).sum

/-- Total number of input candidate frequencies in a candidate-set sequence. -/
def totalCandidates (fund : List (List ℚ)) : ℕ := (fund.map List.length).sum

/-- Absolute value on ℚ (`np.abs`), written out so that it evaluates by
kernel reduction. -/
def ratAbs (q : ℚ) : ℚ := if q < 0 then -q else q

/-- Floor of a rational as an integer (the denominator is positive, so
flooring divides the numerator by the denominator rounding down). -/
def ratFloor (q : ℚ) : ℤ := Int.fdiv q.num q.den

/-- Ceiling of a rational as an integer. -/
def ratCeil (q : ℚ) : ℤ := -(ratFloor (-q))

/-- Stable argsort of a list of rationals, modelling `np.argsort`
(ties are resolved by index order, i.e. the sort key is the pair
`(value, index)` under the lexicographic order, a linear order on the
distinct indices; any correct sort yields this unique result). -/
def argsortQ (l : List ℚ) : List ℕ :=
  (List.range l.length).insertionSort
    (fun a b => l.getD a 0 < l.getD b 0 ∨ (l.getD a 0 = l.getD b 0 ∧ a ≤ b))

/-- `60 / Δt`, detections per minute, from the first two timestamps
(`detection_time_diff = all_times[1] - all_times[0]; dpm = 60./detection_time_diff`). -/
def dpmOf (t0 t1 : ℚ) : ℚ := 60 / (t1 - t0)

/-! ## `exclude_fishes` (tracker.py lines 490-507)

```
keep_idx = []
dpm = 60. / (all_times[1] - all_times[0])
for fish in range(len(fishes)):
    if len(fishes[fish][~np.isnan(fishes[fish])]) >= min_occure_time * dpm:
        keep_idx.append(fish)
return np.asarray(fishes)[keep_idx]
```
`all_times[1]` raises `IndexError` when the time axis has fewer than two
entries, hence the `Option` result. -/

def exclude_fishes (fishes : List Fish) (all_times : List ℚ) (min_occure_time : ℚ) :
    Option (List Fish) :=
  match all_times with
  | t0 :: t1 :: _ =>
    let dpm := dpmOf t0 t1
    let keep_idx := (List.range fishes.length).filter
      (fun fish => decide ((countValid (fishes.getD fish []) : ℚ) ≥ min_occure_time * dpm))
    some (keep_idx.map (fun fish => fishes.getD fish []))
  | _ => none

/-- The `min_occure_time` computation of `fish_tracker` (tracker.py lines 735-737):
`min_occure_time = all_times[-1] * 0.01 / 60.; if min_occure_time > 1.: min_occure_time = 1.` -/
def min_occure_time_of (all_times : List ℚ) : ℚ :=
  let m := all_times.getLastD 0 * (1 / 100) / 60
  if m > 1 then 1 else m

/-! ## `first_level_fish_sorting` (tracker.py lines 113-223) -/

/-- Python's `int()` truncation toward zero, applied to a rational. -/
def intTrunc (q : ℚ) : ℤ := if q ≥ 0 then ratFloor q else ratCeil q

/-- The mutable state of the assignment loop of `first_level_fish_sorting`:
the fish arrays (each of length `len(all_fundamentals)+1`), the last detected
fundamental per fish (`last_fish_fundamentals`), the count of NaNs since the
last detection per fish (`end_nans`), and the next scheduled clean-up step
(`clean_up_idx`). -/
structure SortState where
  fishes : List Fish
  last_fish_fundamentals : List ℚ
  end_nans : List ℕ
  clean_up_idx : ℤ
  deriving Repr, DecidableEq

/-- `clean_up` (tracker.py lines 137-154): remove (in parallel from all three
lists) every fish with `len(fish[~isnan]) <= 10`.  The Python code pops in
reversed index order, which is the same as a stable filter keeping fishes
with more than 10 valid samples. -/
def clean_up (fishes : List Fish) (last : List ℚ) (endn : List ℕ) :
    List Fish × List ℚ × List ℕ :=
  let kept := (fishes.zip (last.zip endn)).filter (fun p => decide (10 < countValid p.1))
  (kept.map Prod.fst, kept.map (fun p => p.2.1), kept.map (fun p => p.2.2))

/-- A fresh fish array: `np.full(len(all_fundamentals)+1, np.nan)` with slot
`enu+1` set to the candidate frequency. -/
def newFishArray (T enu : ℕ) (c : ℚ) : Fish :=
  (List.replicate (T + 1) (none : Option ℚ)).set (enu + 1) (some c)

/-- Append a brand-new fish for candidate `c` (tracker.py lines 182-185 and
196-199). -/
def appendNewFish (T enu : ℕ) (c : ℚ) (st : SortState) : SortState :=
  { st with
    fishes := st.fishes ++ [newFishArray T enu c]
    last_fish_fundamentals := st.last_fish_fundamentals ++ [c]
    end_nans := st.end_nans ++ [0] }

/-- Processing of one candidate frequency `c` at timestep `enu`
(tracker.py lines 174-199):

```
diff = np.abs(np.asarray(last_fish_fundamentals) - fundamentals[idx])
sorted_diff_idx = np.argsort(diff)
tolerated_diff_idx = sorted_diff_idx[diff[sorted_diff_idx] < freq_tolerance]
last_detect_of_tolerated = np.array(end_nans)[tolerated_diff_idx]
if len(tolerated_diff_idx) == 0: <new fish>
else:
    for i in tolerated_diff_idx[np.argsort(last_detect_of_tolerated)]:
        if np.isnan(fishes[i][enu+1]): <assign to fish i>; break
    if not found: <new fish>
``` -/
def assignOne (T : ℕ) (tol : ℚ) (enu : ℕ) (st : SortState) (c : ℚ) : SortState :=
  let diff := st.last_fish_fundamentals.map (fun l => ratAbs (l - c))
  let sorted_diff_idx := argsortQ diff
  let tolerated := sorted_diff_idx.filter (fun i => decide (diff.getD i 0 < tol))
  if tolerated.isEmpty then appendNewFish T enu c st
  else
    let last_detect := tolerated.map (fun i => ((st.end_nans.getD i 0 : ℕ) : ℚ))
    let ordered := (argsortQ last_detect).map (fun p => tolerated.getD p 0)
    match ordered.find? (fun i => ((st.fishes.getD i []).getD (enu + 1) none).isNone) with
    | some i =>
      { st with
        fishes := st.fishes.set i ((st.fishes.getD i []).set (enu + 1) (some c))
        last_fish_fundamentals := st.last_fish_fundamentals.set i c
        end_nans := st.end_nans.set i 0 }
    | none => appendNewFish T enu c st

/-- The per-timestep epilogue (tracker.py lines 201-206): reset
`last_fish_fundamentals[fish]` to the 0-Hz sentinel once `end_nans[fish]`
reaches `prim_time_tolerance * dpm` (forgetting), and increment `end_nans`
for every fish with no detection at this timestep.  The forget test reads the
counter before the increment, exactly as the Python loop does. -/
def forgetAndCount (prim dpm : ℚ) (enu : ℕ) (st : SortState) : SortState :=
  { st with
    last_fish_fundamentals := (List.range st.fishes.length).map (fun f =>
      if (st.end_nans.getD f 0 : ℚ) ≥ prim * dpm then 0
      else st.last_fish_fundamentals.getD f 0)
    end_nans := (List.range st.fishes.length).map (fun f =>
      if ((st.fishes.getD f []).getD (enu + 1) none).isNone then st.end_nans.getD f 0 + 1
      else st.end_nans.getD f 0) }

/-- One iteration of the main loop of `first_level_fish_sorting` for the pair
`(enu, fundamentals)`: the scheduled `clean_up` (lines 168-172), the
assignment of each candidate (lines 174-199), then forgetting and absence
counting (lines 201-206). -/
def sortStep (T : ℕ) (prim tol dpm : ℚ) (st : SortState) (ec : ℕ × List ℚ) : SortState :=
  let enu := ec.1
  let st1 :=
    if (enu : ℤ) = st.clean_up_idx then
      let c := clean_up st.fishes st.last_fish_fundamentals st.end_nans
      { fishes := c.1, last_fish_fundamentals := c.2.1, end_nans := c.2.2,
        clean_up_idx := st.clean_up_idx + intTrunc (30 * dpm) }
    else st
  let st2 := ec.2.foldl (assignOne T tol enu) st1
  forgetAndCount prim dpm enu st2

/-- The initial state (tracker.py lines 159-165): one seed fish whose slot 0
holds frequency 0 Hz, `last_fish_fundamentals = [0.]`, `end_nans = [0]`,
and `clean_up_idx = int(30 * dpm)`. -/
def initSortState (T : ℕ) (dpm : ℚ) : SortState :=
  { fishes := [(List.replicate (T + 1) (none : Option ℚ)).set 0 (some 0)]
    last_fish_fundamentals := [0]
    end_nans := [0]
    clean_up_idx := intTrunc (30 * dpm) }

/-- The state after folding the main loop over the whole candidate-set
sequence. -/
def sortRun (fund : List (List ℚ)) (dpm prim tol : ℚ) : SortState :=
  fund.enum.foldl (sortStep fund.length prim tol dpm) (initSortState fund.length dpm)

/-- `first_level_fish_sorting` (tracker.py lines 113-223), without the
optional `.npy` persistence: run the assignment loop, apply the final
`clean_up`, strip slot 0 from every fish (line 212), and pop the first fish
when its remaining first slot equals `0.` (lines 215-216; a NaN slot compares
unequal to `0.`).  `none` models the `IndexError`s raised when the time axis
has fewer than two entries (`all_times[1]`, line 156) or when `fishes[0][0]`
(line 215) indexes an empty list. -/
def first_level_fish_sorting (fund : List (List ℚ)) (all_times : List ℚ)
    (prim tol : ℚ) : Option (List Fish) :=
  match all_times with
  | t0 :: t1 :: _ =>
    let st := sortRun fund (dpmOf t0 t1) prim tol
    let c := clean_up st.fishes st.last_fish_fundamentals st.end_nans
    let stripped := c.1.map (List.drop 1)
    match stripped with
    | [] => none
    | f0 :: rest =>
      match f0 with
      | [] => none
      | x :: _ => if x = some 0 then some rest else some (f0 :: rest)
  | _ => none

/-! ## Rise records and `cut_at_rises` (tracker.py lines 510-542) -/

/-- A rise record `[[idx_start, idx_end], [freq_start, freq_end]]`.  The
frequencies are the fish-array values at the two indices (always valid in the
pipeline, hence `some`; carried as `Option ℚ` because the array slots are). -/
structure Rise where
  s : ℕ
  e : ℕ
  fs : Option ℚ
  fe : Option ℚ
  deriving Repr, DecidableEq

/-- `fishes[fish][cut_idx:] = np.full(len(fishes[fish][cut_idx:]), np.nan)`:
clear a fish from index `c` on. -/
def clearFrom (f : Fish) (c : ℕ) : Fish :=
  f.take c ++ List.replicate (f.length - c) (none : Option ℚ)

/-- `new_fishes[-1][cut_idx:] = fishes[fish][cut_idx:]` on a fresh NaN array:
keep only the suffix of a fish from index `c` on. -/
def takeSuffix (f : Fish) (c : ℕ) : Fish :=
  List.replicate (min c f.length) (none : Option ℚ) ++ f.drop c

/-- One split of the inner loop of `cut_at_rises` (lines 525-531), applied to
the accumulated (mutated fish, new fishes so far, new rise lists so far). -/
def cutFishStep (acc : Fish × List Fish × List (List Rise)) (r : Rise) :
    Fish × List Fish × List (List Rise) :=
  (clearFrom acc.1 r.s, acc.2.1 ++ [takeSuffix acc.1 r.s], acc.2.2 ++ [[r]])

/-- All splits for one fish.  The Python inner loop runs over the rises in
reversed order, appending one new fish and one single-rise list per rise and
clearing the original's suffix each time. -/
def cutFish (f : Fish) (rs : List Rise) : Fish × List Fish × List (List Rise) :=
  rs.reverse.foldl cutFishStep (f, [], [])

/-- The per-fish split results, in fish index order. -/
def cutProcessed (fishes : List Fish) (all_rises : List (List Rise)) :
    List (Fish × List Fish × List (List Rise)) :=
  (List.range fishes.length).map (fun f => cutFish (fishes.getD f []) (all_rises.getD f []))

/-- The mutated originals after all splits, in their original order. -/
def cutOriginals (fishes : List Fish) (all_rises : List (List Rise)) : List Fish :=
  (cutProcessed fishes all_rises).map (fun p => p.1)

/-- The newly created suffix fragments, in the Python append order (fishes in
descending index order, rises of one fish in descending order). -/
def cutNewFishes (fishes : List Fish) (all_rises : List (List Rise)) : List Fish :=
  ((cutProcessed fishes all_rises).reverse.map (fun p => p.2.1)).flatten

/-- The single-rise lists appended at the end of `all_rises`, aligned with
`cutNewFishes`. -/
def cutNewRises (fishes : List Fish) (all_rises : List (List Rise)) : List (List Rise) :=
  ((cutProcessed fishes all_rises).reverse.map (fun p => p.2.2)).flatten

/-- `cut_at_rises` (tracker.py lines 510-542).  The outer loop runs over the
fishes in reversed index order, so the global append order of the new fishes
(and of their single-rise lists, appended at the end of `all_rises`) is:
fishes in descending index order, and within one fish its rises in descending
order.  After the splits, the *original* (mutated) fishes with at most 10
valid samples are deleted together with their (by now emptied) rise lists;
the new fishes are appended unpruned.  When no split happened at all the
original fish list is returned in full (without the pruning of the
`return_idx` selection), while the rise lists of pruned fishes have been
popped regardless — exactly as the early `return fishes, all_rises` does.
In the pipeline `all_rises` has exactly one entry per fish; entries beyond
`len(fishes)` (never present in practice) are kept, as the Python pops only
touch indices below `len(fishes)`. -/
def cut_at_rises (fishes : List Fish) (all_rises : List (List Rise)) :
    List Fish × List (List Rise) :=
  let fishes1 := cutOriginals fishes all_rises
  let new_fishes := cutNewFishes fishes all_rises
  let keep_idx := (List.range fishes1.length).filter
      (fun f => decide (10 < countValid (fishes1.getD f [])))
  if new_fishes.isEmpty then
    (fishes1, keep_idx.map (fun f => all_rises.getD f []) ++ all_rises.drop fishes.length)
  else
    (keep_idx.map (fun f => fishes1.getD f []) ++ new_fishes,
     keep_idx.map (fun _ => ([] : List Rise)) ++ all_rises.drop fishes.length ++
       cutNewRises fishes all_rises)

/-! ## `detect_rises` / `detect_single_rise` (tracker.py lines 226-330) -/

/-- The fish-array value at index `k` (`fish[k]`, `none` = NaN). -/
def fval (fish : Fish) (k : ℕ) : Option ℚ := fish.getD k none

/-- `a < b` on possibly-NaN values; any comparison with NaN is `False`. -/
def oLt (a b : Option ℚ) : Bool :=
  match a, b with
  | some x, some y => decide (x < y)
  | _, _ => false

/-- `a >= b` on possibly-NaN values; any comparison with NaN is `False`. -/
def oGe (a b : Option ℚ) : Bool :=
  match a, b with
  | some x, some y => decide (x ≥ y)
  | _, _ => false

/-- `a <= b` on possibly-NaN values. -/
def oLe (a b : Option ℚ) : Bool :=
  match a, b with
  | some x, some y => decide (x ≤ y)
  | _, _ => false

/-- Subtraction on possibly-NaN values (NaN-propagating). -/
def oSub (a b : Option ℚ) : Option ℚ :=
  match a, b with
  | some x, some y => some (x - y)
  | _, _ => none

/-- `np.median` of a list of rationals: middle element of the sorted list,
or the mean of the two middle elements for even length. -/
def medianQ (l : List ℚ) : ℚ :=
  let s := l.insertionSort (fun a b => a ≤ b)
  if l.length % 2 = 1 then s.getD (l.length / 2) 0
  else (s.getD (l.length / 2 - 1) 0 + s.getD (l.length / 2) 0) / 2

/-- `np.median` over possibly-NaN values: NaN when the list is empty or
contains a NaN (any later comparison with it is then `False`). -/
def medianOpt (l : List (Option ℚ)) : Option ℚ :=
  if l.isEmpty || l.any Option.isNone then none else some (medianQ l.reduceOption)

/-- Differences of consecutive elements, the first taken against `prev`:
`np.append([w[0] - prev], np.diff(w))`. -/
def pairDiffsFrom (prev : ℚ) : List ℕ → List ℚ
  | [] => []
  | x :: xs => ((x : ℚ) - prev) :: pairDiffsFrom (x : ℚ) xs

/-- The accepted-rise start computation of `detect_single_rise`
(tracker.py lines 298-304):

```
nnans_befor_start = non_nan_idx[(non_nan_idx > non_nan_idx[i] - dpm/60*10) & (non_nan_idx <= non_nan_idx[i])]
diff_nnans_before = np.append([nnans_befor_start[0] - (non_nan_idx[i] - dpm/60*10)], np.diff(nnans_befor_start))
if len(diff_nnans_before[diff_nnans_before >= dpm/60*3]) > 0:
    new_start_idx = nnans_befor_start[diff_nnans_before >= dpm/60*3][-1];  <start at new_start_idx>
<else start at non_nan_idx[i]>
```
`a` is the accepted candidate peak index `non_nan_idx[i]`.  `none` models the
`IndexError` of `nnans_befor_start[0]` on an empty window. -/
def riseStartShift (nn : List ℕ) (a : ℕ) (dpm : ℚ) : Option ℕ :=
  let w := nn.filter (fun (x : ℕ) => decide ((a : ℚ) - dpm / 60 * 10 < (x : ℚ) ∧ (x : ℚ) ≤ (a : ℚ)))
  match w.head? with
  | none => none
  | some _ =>
    let diffs := pairDiffsFrom ((a : ℚ) - dpm / 60 * 10) w
    match ((w.zip diffs).filter (fun p => decide (p.2 ≥ dpm / 60 * 3))).getLast? with
    | some p => some p.1
    | none => some a

/-- The start-shift rule in the words of the (amended) specification: among
the valid samples in the 10-second window before the peak `a`, take the
latest one whose distance to its predecessor in the window (or to the window
edge, for the earliest one) is at least 3 seconds; if there is none, the
start is `a` itself.  Used as the specification-side definition the code is
compared against. -/
def specStartScan (dpm : ℚ) (prev : ℚ) : List ℕ → Option ℕ
  | [] => none
  | x :: xs =>
    match specStartScan dpm (x : ℚ) xs with
    | some y => some y
    | none => if (x : ℚ) - prev ≥ dpm / 60 * 3 then some x else none

/-- Specification-side rise start (see `specStartScan`). -/
def specRiseStart (nn : List ℕ) (a : ℕ) (dpm : ℚ) : ℕ :=
  let w := nn.filter (fun (x : ℕ) => decide ((a : ℚ) - dpm / 60 * 10 < (x : ℚ) ∧ (x : ℚ) ≤ (a : ℚ)))
  (specStartScan dpm ((a : ℚ) - dpm / 60 * 10) w).getD a

/-- Result of the inner (`j`) loop of `detect_single_rise`: a found rise with
the truncated index list, a crash, or a `break`/exhaustion that hands control
back to the outer (`i`) loop. -/
inductive InnerRes where
  | found (r : Rise) (rest : List ℕ)
  | crash
  | stop
  deriving Repr, DecidableEq

/-- The inner loop of `detect_single_rise` (tracker.py lines 280-306): scan
the end candidates `j` (positions into `non_nan_idx` strictly after `i`).
`nlast` is `non_nan_idx[-1]`. -/
def dsrInner (fish : Fish) (nn : List ℕ) (rise_f_th dpm : ℚ) (nlast i : ℕ) :
    List ℕ → InnerRes
  | [] => .stop
  | j :: rest =>
    let nni := nn.getD i 0
    let nnj := nn.getD j 0
    if oGe (fval fish nnj) (fval fish nni) then .stop
    else if decide ((nnj : ℚ) - (nni : ℚ) ≥ dpm * 10) then .stop
    else
      match ((List.range nn.length).filter
          (fun p => decide ((nn.getD p 0 : ℚ) < (nnj : ℚ) + dpm / 60 * 30))).getLast? with
      | none => .crash
      | some h2 =>
        let idxs2 := (nn.drop (j + 1)).take (h2 - (j + 1))
        let vals2 := idxs2.map (fval fish)
        let lastPossible := oLt (oSub (fval fish nnj) (medianOpt vals2)) (some (1 / 20))
        if vals2.all (fun v => oGe v (fval fish nnj)) || decide (nnj = nlast) || lastPossible then
          let freq_th := rise_f_th +
            ((ratFloor (((nnj : ℚ) - (nni : ℚ)) / (dpm / 60 * 30)) : ℤ) : ℚ) * rise_f_th
          if oGe (oSub (fval fish nni) (fval fish nnj)) (some freq_th) then
            match riseStartShift nn nni dpm with
            | none => .crash
            | some s => .found ⟨s, nnj, fval fish s, fval fish nnj⟩ (nn.drop (j + 1))
          else .stop
        else dsrInner fish nn rise_f_th dpm nlast i rest

/-- The outer loop of `detect_single_rise` (tracker.py lines 272-307): scan
the peak candidates `i` (positions into `non_nan_idx`).  A `found` inner
result returns the rise, a `stop` moves on to the next `i`. -/
def dsrOuter (fish : Fish) (nn : List ℕ) (rise_f_th dpm : ℚ) (nlast : ℕ) :
    List ℕ → Option (Option Rise × List ℕ)
  | [] => some (none, [nlast])
  | i :: rest =>
    match ((List.range nn.length).filter
        (fun p => decide ((nn.getD p 0 : ℚ) < (nn.getD i 0 : ℚ) + dpm / 60 * 10))).getLast? with
    | none => none
    | some h =>
      let idxs := (nn.drop (i + 1)).take (h - (i + 1))
      if decide ((idxs.length : ℚ) < dpm / 60 * 1) then dsrOuter fish nn rise_f_th dpm nlast rest
      else if idxs.all (fun k => oLt (fval fish k) (fval fish (nn.getD i 0))) then
        match dsrInner fish nn rise_f_th dpm nlast i rest with
        | .found r nnrest => some (some r, nnrest)
        | .crash => none
        | .stop => dsrOuter fish nn rise_f_th dpm nlast rest
      else dsrOuter fish nn rise_f_th dpm nlast rest

/-- `detect_single_rise` (tracker.py lines 242-307).  `nn` is the array
`non_nan_idx` of valid indices; the result is `none` on an `IndexError`,
otherwise the (optional) detected rise — `none` standing for the no-rise
sentinel `[[], []]` — together with the updated `non_nan_idx`. -/
def detect_single_rise (fish : Fish) (nn : List ℕ) (rise_f_th dpm : ℚ) :
    Option (Option Rise × List ℕ) :=
  match nn.getLast? with
  | none => none
  | some nlast =>
    let c := (nn.filter (fun (x : ℕ) => decide ((x : ℚ) ≤ (nlast : ℚ) - dpm / 60 * 10))).length
    dsrOuter fish nn rise_f_th dpm nlast (List.range c)

/-- The per-fish while loop of `detect_rises` (tracker.py lines 322-324),
with explicit fuel (the Python loop is unbounded; `validIdx fish + 1` steps
always suffice when `dpm > 0`, see the corresponding theorem).  `none` models
an error (or loop divergence): in particular the condition
`non_nan_idx[-1] - non_nan_idx[0]` raises `IndexError` on a fish with no
valid sample. -/
def riseLoop (fish : Fish) (rise_f_th dpm : ℚ) :
    ℕ → List ℕ → List (Option Rise) → Option (List (Option Rise))
  | 0, _, _ => none
  | fuel + 1, nn, acc =>
    match nn.getLast?, nn.head? with
    | some l, some h =>
      if decide ((l : ℚ) - (h : ℚ) > dpm / 60 * 10 + 1) then
        match detect_single_rise fish nn rise_f_th dpm with
        | none => none
        | some (rd, nn') => riseLoop fish rise_f_th dpm fuel nn' (acc ++ [rd])
      else some acc
    | _, _ => none

/-- The per-fish part of `detect_rises` (tracker.py lines 320-328): run the
while loop on `non_nan_idx`, then pop a trailing no-rise sentinel.  The
sentinel can only be the last entry (its truncated index list ends the
loop when `dpm > 0`), so dropping the remaining `Option` layer with
`reduceOption` loses nothing. -/
def detectRisesFish (fish : Fish) (rise_f_th dpm : ℚ) : Option (List Rise) :=
  let nn := validIdx fish
  match riseLoop fish rise_f_th dpm (nn.length + 1) nn [] with
  | none => none
  | some fr =>
    let fr2 := match fr.getLast? with
      | some none => fr.dropLast
      | _ => fr
    some fr2.reduceOption

/-- `detect_rises` (tracker.py lines 226-330), without the progress printing:
one ordered rise list per fish; `none` models an error on some fish. -/
def detect_rises (fishes : List Fish) (all_times : List ℚ) (rise_f_th : ℚ) :
    Option (List (List Rise)) :=
  match all_times with
  | t0 :: t1 :: _ =>
    fishes.foldl (fun acc fish =>
      match acc with
      | none => none
      | some rs =>
        match detectRisesFish fish rise_f_th (dpmOf t0 t1) with
        | none => none
        | some fr => some (rs ++ [fr])) (some [])
  | _ => none

/-! ## `combine_fishes` (tracker.py lines 333-487) -/

/-- `nan_test = fishes[fish] + fishes[comp_fish]; len(nan_test[~np.isnan(nan_test)])`:
the number of timesteps where both fishes are valid (the fish arrays all have
the time-axis length in the pipeline). -/
def overlapCount (a b : Fish) : ℕ :=
  ((a.zip b).filter (fun p => p.1.isSome && p.2.isSome)).length

/-- `|a - b|` on possibly-NaN values. -/
def oAbsSub (a b : Option ℚ) : Option ℚ :=
  match a, b with
  | some x, some y => some (ratAbs (x - y))
  | _, _ => none

/-- First and last valid index of every fish (tracker.py lines 381-384);
`none` models the `IndexError` on a fish with no valid sample. -/
def occureIdx : List Fish → Option (List (ℕ × ℕ))
  | [] => some []
  | f :: rest =>
    match (validIdx f).head?, (validIdx f).getLast? with
    | some a, some b =>
      match occureIdx rest with
      | none => none
      | some l => some ((a, b) :: l)
    | _, _ => none

/-- The compare-index pair for `(fish, comp_fish)` (tracker.py lines
396-417): `some none` = not combinable, `some (some (ci_fish, ci_comp))` =
combinable with these compare indices, `none` = `IndexError`. -/
def compareIdxs (fishes : List Fish) (oi : List (ℕ × ℕ)) (rises : List (List Rise))
    (dpm mtt : ℚ) (fish comp : ℕ) : Option (Option (ℕ × ℕ)) :=
  let ff := (oi.getD fish (0, 0)).1
  let cf := (oi.getD comp (0, 0)).1
  let cl := (oi.getD comp (0, 0)).2
  if ff > cf ∧ ff < cl then
    let cnn := validIdx (fishes.getD comp [])
    match (rises.getD fish []).find? (fun r => decide (r.s = ff)) with
    | some r =>
      match (cnn.filter (fun x => decide (x < r.e))).getLast? with
      | none => none
      | some y => some (some (r.e, y))
    | none =>
      match (cnn.filter (fun x => decide (x < ff))).getLast? with
      | none => none
      | some y => some (some (ff, y))
  else if ff > cl ∧ (ff : ℚ) - (cl : ℚ) < mtt * dpm then
    match (rises.getD fish []).find? (fun r => decide (r.s = ff)) with
    | some r => some (some (r.e, cl))
    | none => some (some (ff, cl))
  else some none

/-- One `comp_fish` iteration of the matrix-building loop (tracker.py lines
393-433), updating the running `possible_freq_combinations` and
`possible_combinations` vectors and the committed row.  Committing happens in
the iteration whose `comp_fish` *id* is 0, as in the Python condition
`if comp_fish == 0 and len(possible_freq_combinations[~np.isnan(...)]) > 0`. -/
def buildRowGo (fishes : List Fish) (oi : List (ℕ × ℕ)) (rises : List (List Rise))
    (dpm mtt fth : ℚ) (n fish : ℕ) :
    List (Option ℚ) → List (Option ℚ) → Option (List (Option ℚ)) → List ℕ →
    Option (List (Option ℚ))
  | _, _, committed, [] => some (committed.getD (List.replicate n none))
  | freqs, combs, committed, comp :: rest =>
    match compareIdxs fishes oi rises dpm mtt fish comp with
    | none => none
    | some ci? =>
      let upd :=
        match ci? with
        | none => (freqs, combs)
        | some ci =>
          match oAbsSub (fval (fishes.getD fish []) ci.1) (fval (fishes.getD comp []) ci.2) with
          | none => (freqs, combs)
          | some d =>
            if d ≤ fth ∧ overlapCount (fishes.getD fish []) (fishes.getD comp []) ≤ 20 then
              (freqs.set comp (some d),
               combs.set comp (some (d + ratAbs ((ci.1 : ℚ) - (ci.2 : ℚ)) / (dpm / 60) * (1 / 100))))
            else (freqs, combs)
      let committed' :=
        if comp = 0 ∧ upd.1.any Option.isSome then some upd.2 else committed
      buildRowGo fishes oi rises dpm mtt fth n fish upd.1 upd.2 committed' rest

/-- The row of the combination matrix for `fish` (the vectors start as
all-NaN of length `len(fishes)`, lines 389-391). -/
def buildRow (fishes : List Fish) (oi : List (ℕ × ℕ)) (rises : List (List Rise))
    (dpm mtt fth : ℚ) (n fish : ℕ) (comps : List ℕ) : Option (List (Option ℚ)) :=
  buildRowGo fishes oi rises dpm mtt fth n fish
    (List.replicate n none) (List.replicate n none) none comps

/-- The whole matrix-building phase (tracker.py lines 388-433): for every
fish, in reversed occurrence order, compare against the fishes occurring
strictly earlier, most recent first (`reversed(occure_order[:pos])`). -/
def buildMatrix (fishes : List Fish) (oi : List (ℕ × ℕ)) (rises : List (List Rise))
    (dpm mtt fth : ℚ) (order : List ℕ) : Option (List (List (Option ℚ))) :=
  let n := fishes.length
  let pairs := (List.range order.length).reverse.map
      (fun p => (order.getD p 0, (order.take p).reverse))
  pairs.foldl (fun acc pr =>
    match acc with
    | none => none
    | some m =>
      match buildRow fishes oi rises dpm mtt fth n pr.1 pr.2 with
      | none => none
      | some row => some (m.set pr.1 row))
    (some (List.replicate n (List.replicate n (none : Option ℚ))))

/-- All non-NaN entries of the matrix, row-major. -/
def matrixEntries (m : List (List (Option ℚ))) : List ℚ :=
  (m.map (fun row => row.reduceOption)).flatten

/-- Minimum of a list of rationals (`np.min`). -/
def minQ : List ℚ → Option ℚ
  | [] => none
  | x :: xs =>
    match minQ xs with
    | none => some x
    | some m => some (if x ≤ m then x else m)

/-- Row-major first position holding the value `v`, modelling
`np.where(matrix == v)[0][0]` / `[1][0]`. -/
def firstPosWith (m : List (List (Option ℚ))) (v : ℚ) : Option (ℕ × ℕ) :=
  (m.enum.filterMap (fun p =>
    match p.2.findIdx? (fun e => e = some v) with
    | some j => some (p.1, j)
    | none => none)).head?

/-- The position of the globally minimal matrix entry. -/
def findMinPos (m : List (List (Option ℚ))) : Option (ℕ × ℕ) :=
  match minQ (matrixEntries m) with
  | none => none
  | some v => firstPosWith m v

/-- Clear one matrix entry (`possible_combinations_all_fish[fish][comp_fish] = np.nan`). -/
def clearEntry (m : List (List (Option ℚ))) (f c : ℕ) : List (List (Option ℚ)) :=
  m.set f ((m.getD f []).set c none)

/-- `fishes[comp_fish][~np.isnan(fishes[fish])] = fishes[fish][~np.isnan(fishes[fish])]`:
copy every valid sample of `a` into `b`. -/
def mergeFishInto (b a : Fish) : Fish :=
  (List.range b.length).map (fun k =>
    if (a.getD k none).isSome then a.getD k none else b.getD k none)

/-- Redirect every matrix entry pointing at column `f` to column `c`,
keeping the smaller cost when column `c` is already set (tracker.py lines
455-465). -/
def redirectCol (m : List (List (Option ℚ))) (f c : ℕ) : List (List (Option ℚ)) :=
  m.map (fun row =>
    match row.getD f none with
    | none => row
    | some v =>
      match row.getD c none with
      | none => (row.set c (some v)).set f none
      | some w =>
        if v < w then (row.set c (some v)).set f none
        else row.set f none)

/-- The state of the greedy combination loop. -/
structure CombState where
  fishes : List Fish
  matrix : List (List (Option ℚ))
  rises : List (List Rise)
  deriving Repr, DecidableEq

/-- One resolution step of the greedy loop for the located minimal entry
`(f, c)` (tracker.py lines 444-471): when the combined fishes would have 20
or more simultaneously-valid samples the entry is cleared and nothing is
merged; otherwise fish `f` is merged into fish `c`, column `f` is redirected
to `c`, row `f` is cleared, and the rises of `f` are transferred to `c`. -/
def combineGreedyStep (st : CombState) (f c : ℕ) : CombState :=
  if 20 ≤ overlapCount (st.fishes.getD f []) (st.fishes.getD c []) then
    { st with matrix := clearEntry st.matrix f c }
  else
    { fishes := (st.fishes.set c (mergeFishInto (st.fishes.getD c []) (st.fishes.getD f []))).set f
        (List.replicate (st.fishes.getD f []).length (none : Option ℚ))
      matrix := (redirectCol st.matrix f c).set f
        (List.replicate (st.matrix.getD f []).length (none : Option ℚ))
      rises := (st.rises.set c (st.rises.getD c [] ++ st.rises.getD f [])).set f [] }

/-- The greedy loop (tracker.py lines 435-474), with fuel: every iteration
strictly decreases the number of non-NaN matrix entries, so
`n² + 1` steps always suffice. -/
def combineLoop : ℕ → CombState → CombState
  | 0, st => st
  | fuel + 1, st =>
    if (matrixEntries st.matrix).isEmpty then st
    else
      match findMinPos st.matrix with
      | none => st
      | some p => combineLoop fuel (combineGreedyStep st p.1 p.2)

/-- `combine_fishes` (tracker.py lines 333-487): build the cost matrix, run
the greedy resolution, and drop the fishes left without any valid sample
(popping their rise lists).  `none` models an `IndexError` (short time axis
or a fish with no valid sample). -/
def combine_fishes (fishes : List Fish) (all_times : List ℚ) (all_rises : List (List Rise))
    (max_time_tolerance f_th : ℚ) : Option (List Fish × List (List Rise)) :=
  match all_times with
  | t0 :: t1 :: _ =>
    let dpm := dpmOf t0 t1
    match occureIdx fishes with
    | none => none
    | some oi =>
      let order := argsortQ (oi.map (fun p => ((p.1 : ℕ) : ℚ)))
      match buildMatrix fishes oi all_rises dpm max_time_tolerance f_th order with
      | none => none
      | some m0 =>
        let st := combineLoop (fishes.length * fishes.length + 1)
          ⟨fishes, m0, all_rises⟩
        let keep := (List.range st.fishes.length).filter
          (fun f => decide (0 < countValid (st.fishes.getD f [])))
        some (keep.map (fun f => st.fishes.getD f []),
              keep.map (fun f => st.rises.getD f []) ++ st.rises.drop st.fishes.length)
  | _ => none

/-! ## Concrete inputs used by the claim theorems -/

/-- 15 timesteps; step 0 offers candidates `[500, 100]`, steps 1-14 offer
`[500]`.  16 candidates in total. -/
def fundC1 : List (List ℚ) := [500, 100] :: List.replicate 14 [500]

/-- Time axis `0, 1, ..., 14` (seconds), matching `fundC1` in length. -/
def timesC1 : List ℚ := (List.range 15).map (fun i => (i : ℚ))

/-- 12 timesteps, one candidate `0.1 Hz` each (all caught by the seed fish). -/
def fundC1W : List (List ℚ) := List.replicate 12 [1 / 10]

/-- Time axis `0, 1, ..., 11`, matching `fundC1W` in length. -/
def timesC1W : List ℚ := (List.range 12).map (fun i => (i : ℚ))

/-- A fish valid at all 40 indices. -/
def fishC2 : Fish := (List.range 40).map (fun _ => some (500 : ℚ))

/-- One rise starting at index 35, so the split suffix has 5 valid samples. -/
def risesC2 : List (List Rise) := [[⟨35, 38, some 505, some 500⟩]]

/-- A fish with a 2-step gap (indices 3-4, i.e. 4 seconds at `Δt = 2 s`)
followed by a rise: 500 Hz up to the gap, then 501, 503, a peak of 505 at
index 7 decaying back to 500 from index 12 on. -/
def fishC3 : Fish :=
  [some 500, some 500, some 500, none, none, some 501, some 503, some 505,
   some 504, some 503, some 502, some 501] ++ List.replicate 18 (some (500 : ℚ))

/-- A fish with exactly one valid sample out of 100. -/
def fishC4 : Fish := some (500 : ℚ) :: List.replicate 99 (none : Option ℚ)

/-- Time axis `0, 1, ..., 99` (seconds): total duration under 100 minutes,
so `all_times[-1] * 0.01 / 60 < 1`. -/
def timesC4 : List ℚ := (List.range 100).map (fun i => (i : ℚ))

/-- One candidate 500 Hz at step 0, two empty steps, then a candidate
`0.4 Hz` at step 3. -/
def fundC5 : List (List ℚ) := [[500], [], [], [2 / 5]]

/-- The state of the run
`sortRun fundC5 (dpmOf 0 1) (1/60) 1` after its first `k` timesteps
(`List.foldl` decomposes over `take k`; for `k = 4` this is the full run). -/
def sortStateC5 (k : ℕ) : SortState :=
  (fundC5.take k).enum.foldl (sortStep 4 (1 / 60) 1 (dpmOf 0 1)) (initSortState 4 (dpmOf 0 1))

/-- 15 timesteps of a single `0.2 Hz` candidate (within `freq_tolerance` of
the 0-Hz sentinel, so the seed fish catches all of them). -/
def fundC6 : List (List ℚ) := List.replicate 15 [1 / 5]

/-- The earlier fish of the C7 scenario: valid at indices 0-29 at 500 Hz. -/
def fishC7B : Fish := (List.range 30).map (fun _ => some (500 : ℚ))

/-- The later fish of the C7 scenario: valid at indices 10-29 at 501 Hz, so
that it overlaps `fishC7B` at exactly 20 indices. -/
def fishC7A : Fish := List.replicate 10 (none : Option ℚ) ++ List.replicate 20 (some (501 : ℚ))

/-- The loop invariant of the first-level assignment run: every fish array
has the full length `T + 1`, the three parallel lists have equal lengths, and
the fish list is never empty (it starts with the seed fish and fishes are
only ever added in between clean-ups). -/
def SortInv (T : ℕ) (st : SortState) : Prop :=
  (∀ f ∈ st.fishes, f.length = T + 1) ∧
  st.last_fish_fundamentals.length = st.fishes.length ∧
  st.end_nans.length = st.fishes.length ∧
  st.fishes ≠ []

end Thunderfish

/-! # Theorems -/

namespace Thunderfish

/-- The `keep_idx`-then-select idiom equals a plain filter. -/
theorem range_filter_map_getD {α : Type} (l : List α) (d : α) (p : α → Bool) :
    ((List.range l.length).filter (fun i => p (l.getD i d))).map (fun i => l.getD i d)
      = l.filter p := by
  induction l with
  | nil => rfl
  | cons a t ih =>
    rw [List.length_cons, List.range_succ_eq_map, List.filter_cons]
    simp only [List.getD_cons_zero, List.filter_map, Function.comp_def, List.getD_cons_succ]
    by_cases hp : p a
    · simp only [hp, if_pos, List.map_cons, List.getD_cons_zero, List.map_map]
      rw [List.filter_cons, hp]
      simp only [Function.comp_def, List.getD_cons_succ]
      exact congrArg (a :: ·) ih
    · simp only [hp, Bool.false_eq_true, if_false, List.map_map]
      rw [List.filter_cons]
      simp only [hp, Bool.false_eq_true, if_false, Function.comp_def, List.getD_cons_succ]
      exact ih

/-- `exclude_fishes` is the filter keeping fishes with at least
`min_occure_time * dpm` valid samples. -/
theorem exclude_eq_filter (fishes : List Fish) (t0 t1 : ℚ) (rest : List ℚ) (m : ℚ) :
    exclude_fishes fishes (t0 :: t1 :: rest) m =
      some (fishes.filter (fun g => decide ((countValid g : ℚ) ≥ m * dpmOf t0 t1))) := by
  unfold exclude_fishes
  exact congrArg some
    (range_filter_map_getD fishes [] (fun g => decide ((countValid g : ℚ) ≥ m * dpmOf t0 t1)))

/-- `min_occure_time` is `0.01` times the total duration in minutes, capped
*above* at 1 minute, i.e. the minimum of the two. -/
theorem min_occure_time_eq_min (all_times : List ℚ) :
    min_occure_time_of all_times = min 1 (all_times.getLastD 0 * (1 / 100) / 60) := by
  show (if all_times.getLastD 0 * (1 / 100) / 60 > 1 then (1 : ℚ)
      else all_times.getLastD 0 * (1 / 100) / 60) = _
  rw [min_def]
  split_ifs with h1 h2 h2 <;> first | rfl | linarith

/-- C4 counterexample.  The claim says the filter removes exactly the
trajectories with fewer valid samples than `max(1, 0.01 ×
total_duration_minutes)` minutes in steps.  On a 100-second recording the
duration term is `99 * 0.01 / 60 ≤ 1` (first conjunct), so the claimed
threshold is `max(1, …) = 1` minute, i.e. `1 * dpm = 60` steps.  `fishC4`
has a single valid sample — far below that claimed threshold (second
conjunct) — yet `exclude_fishes` with the `min_occure_time` computed by
`fish_tracker` keeps it (third conjunct): the code caps the minute value
with `min`, not `max`. -/
theorem C4_counterexample :
    timesC4.getLastD 0 * (1 / 100) / 60 ≤ 1 ∧
    (countValid fishC4 : ℚ) < 1 * dpmOf 0 1 ∧
    exclude_fishes [fishC4] timesC4 (min_occure_time_of timesC4) = some [fishC4] := by
  decide

/-- C4 (amended): the trajectory filter, run with the `min_occure_time` that
`fish_tracker` computes, keeps exactly the trajectories whose count of valid
samples is at least `min(1, 0.01 × total_duration_minutes)` minutes expressed
in steps — the minute value is capped *above* at 1 minute (`min`, not
`max`) — and removes all others. -/
theorem C4_amended (fishes : List Fish) (t0 t1 : ℚ) (rest : List ℚ) :
    exclude_fishes fishes (t0 :: t1 :: rest) (min_occure_time_of (t0 :: t1 :: rest)) =
      some (fishes.filter (fun g =>
        decide ((countValid g : ℚ) ≥
          min 1 ((t0 :: t1 :: rest).getLastD 0 * (1 / 100) / 60) * dpmOf t0 t1))) := by
  rw [exclude_eq_filter, min_occure_time_eq_min]

/-- C9: `exclude_fishes` is idempotent — applied to its own output with the
same time axis and the same `min_occure_time` it returns the output
unchanged. -/
theorem C9_theorem (fishes out : List Fish) (all_times : List ℚ) (m : ℚ)
    (h : exclude_fishes fishes all_times m = some out) :
    exclude_fishes out all_times m = some out := by
  match all_times with
  | [] => simp [exclude_fishes] at h
  | [t] => simp [exclude_fishes] at h
  | t0 :: t1 :: rest =>
    rw [exclude_eq_filter] at h
    injection h with h
    subst h
    rw [exclude_eq_filter]
    refine congrArg some (List.filter_eq_self.mpr ?_)
    intro a ha
    exact (List.mem_filter.mp ha).2

/-- Witness for C9 at a concrete input. -/
theorem C9_witness :
    exclude_fishes [[some (1 : ℚ)]] [0, 1] 0 = some [[some (1 : ℚ)]] :=
  C9_theorem [[some (1 : ℚ)]] [[some (1 : ℚ)]] [0, 1] 0 (by decide)

/-- C6: no fail-fast validation exists.  First conjunct: the result of
`first_level_fish_sorting` does not depend on the length of the time axis at
all (only the first two timestamps are read, for `dpm`), so a candidate
sequence whose length mismatches the time axis cannot be detected.  Second
conjunct: a malformed input — 15 candidate sets against a 3-entry time axis,
with a *negative* `prim_time_tolerance` — is processed to a normal result
instead of raising a descriptive error at entry. -/
theorem C6_theorem :
    (∀ (fund : List (List ℚ)) (t0 t1 : ℚ) (r r' : List ℚ) (prim tol : ℚ),
      first_level_fish_sorting fund (t0 :: t1 :: r) prim tol =
        first_level_fish_sorting fund (t0 :: t1 :: r') prim tol) ∧
    (first_level_fish_sorting fundC6 [0, 1, 2] (-5) (1 / 2)).isSome = true :=
  ⟨fun _ _ _ _ _ _ _ => rfl, by decide⟩

/-- C6 counterexample: a malformed input — a 15-step candidate sequence
against a 3-entry time axis, with a negative `prim_time_tolerance` — is not
rejected at entry with a descriptive error; `first_level_fish_sorting` runs
all its stages and returns a normal result. -/
theorem C6_counterexample :
    fundC6.length = 15 ∧
    (first_level_fish_sorting fundC6 [0, 1, 2] (-5) (1 / 2)).isSome = true := by
  decide

/-- C1 counterexample.  `fundC1` offers 16 candidates on a matching 15-step
time axis; with `prim_time_tolerance = 10⁶` minutes (effectively infinite)
the returned trajectories hold only 15 valid samples in total: the final
`clean_up` pruned the fish that carried the 16th candidate (and the seed
fish), so conservation fails. -/
theorem C1_counterexample :
    totalCandidates fundC1 = 16 ∧ timesC1.length = fundC1.length ∧
    (first_level_fish_sorting fundC1 timesC1 1000000 (1 / 2)).map totalValid = some 15 := by
  decide

/-- C2 counterexample.  One fish, valid at all 40 indices, with one rise
starting at index 35.  After `cut_at_rises` the returned collection is
`[mutated original, new suffix fragment]` with 35 and 5 valid samples: the
newly created fragment has fewer than 10 valid samples and is *not* pruned
(the pruning loop only runs over the mutated originals). -/
theorem C2_counterexample :
    (cut_at_rises [fishC2] risesC2).1.map countValid = [35, 5] ∧
    (cut_at_rises [fishC2] risesC2).2 = [[], [⟨35, 38, some 505, some 500⟩]] := by
  decide

/-- C2 (amended): when at least one split occurred, the returned collection
is exactly: the mutated originals with **more than 10** valid samples (those
with at most 10 are pruned), followed by **all** newly created suffix
fragments — the new fragments are kept regardless of their valid-sample
count. -/
theorem C2_amended (fishes : List Fish) (all_rises : List (List Rise))
    (h : cutNewFishes fishes all_rises ≠ []) :
    (cut_at_rises fishes all_rises).1 =
      (cutOriginals fishes all_rises).filter (fun g => decide (10 < countValid g)) ++
        cutNewFishes fishes all_rises := by
  unfold cut_at_rises
  rw [if_neg (by simpa using h)]
  simp only []
  congr 1
  exact range_filter_map_getD (cutOriginals fishes all_rises) []
    (fun g => decide (10 < countValid g))

/-- Witness for C2 (amended) on the `fishC2` scenario. -/
theorem C2_witness :
    (cut_at_rises [fishC2] risesC2).1 =
      (cutOriginals [fishC2] risesC2).filter (fun g => decide (10 < countValid g)) ++
        cutNewFishes [fishC2] risesC2 :=
  C2_amended [fishC2] risesC2 (by decide)

/-- C5 counterexample.  With `prim_time_tolerance = 1/60` minutes (one step)
and `freq_tolerance = 1`, fish 1 (created by the 500-Hz candidate at step 0)
has `end_nans = 2 > prim_time_tolerance * dpm = 1` after three steps and its
last-observed state has been reset to the 0-Hz sentinel — it is in the
forgotten state.  Yet the candidate `0.4 Hz` of step 3 is assigned to
exactly this forgotten fish (slot 4 of its array). -/
theorem C5_counterexample :
    (sortStateC5 3).end_nans.getD 1 0 = 2 ∧
    (1 / 60 : ℚ) * dpmOf 0 1 < 2 ∧
    (sortStateC5 3).last_fish_fundamentals.getD 1 0 = 0 ∧
    ((sortStateC5 4).fishes.getD 1 []).getD 4 none = some (2 / 5) ∧
    sortStateC5 4 = sortRun fundC5 (dpmOf 0 1) (1 / 60) 1 := by
  decide

/-- `getD` of a map over `List.range` evaluates the function. -/
theorem getD_range_map {α : Type} (g : ℕ → α) (n i : ℕ) (h : i < n) (d : α) :
    ((List.range n).map g).getD i d = g i := by
  rw [List.getD_eq_getElem?_getD, List.getElem?_map, List.getElem?_range h]
  rfl

/-- Members of an argsort are indices into the list. -/
theorem mem_argsortQ_lt {l : List ℚ} {i : ℕ} (h : i ∈ argsortQ l) : i < l.length := by
  have := (List.perm_insertionSort
    (fun a b => l.getD a 0 < l.getD b 0 ∨ (l.getD a 0 = l.getD b 0 ∧ a ≤ b))
    (List.range l.length)).mem_iff.mp h
  exact List.mem_range.mp this

/-- An in-bounds `getD` is a member of the list. -/
theorem getD_mem {α : Type} {l : List α} {i : ℕ} (h : i < l.length) (d : α) :
    l.getD i d ∈ l := by
  rw [List.getD_eq_getElem?_getD, List.getElem?_eq_getElem h, Option.getD_some]
  exact List.getElem_mem h

/-- C5 (amended).  First conjunct: once the absence counter of fish `f` has
reached `prim_time_tolerance * dpm`, the per-timestep epilogue resets the
fish's last-observed frequency to the 0-Hz sentinel.  Second conjunct: a
trajectory whose last-observed state is the 0-Hz sentinel is still matched
against new candidates — but a candidate `c` can only be assigned to it when
`|0 - c| < freq_tolerance`; candidates farther from 0 Hz never re-anchor a
forgotten trajectory. -/
theorem C5_amended :
    (∀ (prim dpm : ℚ) (enu : ℕ) (st : SortState) (f : ℕ),
       f < st.fishes.length →
       (st.end_nans.getD f 0 : ℚ) ≥ prim * dpm →
       (forgetAndCount prim dpm enu st).last_fish_fundamentals.getD f 0 = 0) ∧
    (∀ (T : ℕ) (tol : ℚ) (enu : ℕ) (st : SortState) (c : ℚ) (i : ℕ),
       i < st.fishes.length →
       st.last_fish_fundamentals.getD i 0 = 0 →
       (assignOne T tol enu st c).fishes.getD i [] ≠ st.fishes.getD i [] →
       ratAbs (0 - c) < tol) := by
  constructor
  · intro prim dpm enu st f hf hge
    unfold forgetAndCount
    rw [getD_range_map _ _ _ hf]
    simp only [ge_iff_le] at hge
    rw [if_pos hge]
  · intro T tol enu st c i hi h0 hne
    unfold assignOne at hne
    by_cases hemp : (List.filter
        (fun j => decide ((st.last_fish_fundamentals.map (fun l => ratAbs (l - c))).getD j 0 < tol))
        (argsortQ (st.last_fish_fundamentals.map (fun l => ratAbs (l - c))))).isEmpty
    · exfalso
      apply hne
      simp only [hemp, if_pos]
      unfold appendNewFish
      simp only []
      rw [List.getD_eq_getElem?_getD, List.getElem?_append_left hi, ← List.getD_eq_getElem?_getD]
    · simp only [hemp, Bool.false_eq_true, if_false] at hne
      set diff := st.last_fish_fundamentals.map (fun l => ratAbs (l - c)) with hdiff
      set tolerated := (argsortQ diff).filter (fun j => decide (diff.getD j 0 < tol)) with htol
      set ordered := (argsortQ (tolerated.map (fun j => ((st.end_nans.getD j 0 : ℕ) : ℚ)))).map
        (fun p => tolerated.getD p 0) with hord
      cases hfind : ordered.find? (fun j => ((st.fishes.getD j []).getD (enu + 1) none).isNone) with
      | none =>
        rw [hfind] at hne
        exfalso
        apply hne
        unfold appendNewFish
        simp only []
        rw [List.getD_eq_getElem?_getD, List.getElem?_append_left hi, ← List.getD_eq_getElem?_getD]
      | some j =>
        rw [hfind] at hne
        by_cases hij : i = j
        · subst hij
          have hjmem : i ∈ ordered := List.mem_of_find?_eq_some hfind
          rw [hord] at hjmem
          obtain ⟨p, hp, hpe⟩ := List.mem_map.mp hjmem
          have hplen : p < tolerated.length := by
            have := mem_argsortQ_lt hp
            rwa [List.length_map] at this
          have hmemt : i ∈ tolerated := hpe ▸ getD_mem hplen 0
          rw [htol] at hmemt
          have hmem := List.mem_filter.mp hmemt
          have hlt : diff.getD i 0 < tol := of_decide_eq_true hmem.2
          have hilen : i < diff.length := mem_argsortQ_lt hmem.1
          have hilen' : i < st.last_fish_fundamentals.length := by
            rw [hdiff, List.length_map] at hilen
            exact hilen
          rw [hdiff, List.getD_eq_getElem?_getD, List.getElem?_map,
            List.getElem?_eq_getElem hilen'] at hlt
          simp only [Option.map_some', Option.getD_some] at hlt
          rw [List.getD_eq_getElem?_getD, List.getElem?_eq_getElem hilen',
            Option.getD_some] at h0
          rw [h0] at hlt
          exact hlt
        · exfalso
          apply hne
          simp only []
          rw [List.getD_eq_getElem?_getD, List.getElem?_set_ne (fun hh => hij hh.symm),
            ← List.getD_eq_getElem?_getD]

/-- Witness for C5 (amended) at concrete inputs: the seed fish of
`initSortState 1 60` is forgotten at `prim_time_tolerance = 0` and its
sentinel is reset to 0; assigning the candidate 500 Hz to the 0-Hz fish
under `freq_tolerance = 501` forces `|0 - 500| < 501`. -/
theorem C5_witness :
    (forgetAndCount 0 60 0 (initSortState 1 60)).last_fish_fundamentals.getD 0 0 = 0 ∧
    ratAbs (0 - (500 : ℚ)) < 501 :=
  ⟨C5_amended.1 0 60 0 (initSortState 1 60) 0 (by decide) (by decide),
   C5_amended.2 1 501 0 (initSortState 1 60) 500 0 (by decide) (by decide) (by decide)⟩

/-- C7 counterexample.  `fishC7A` and `fishC7B` have *exactly* 20
simultaneously-valid samples, which does not exceed a 20-sample cap.  The
build phase accepts the pair (`nan_test <= 20`) and records cost `1.01` in
the matrix, so `(A, B)` is the globally minimal entry; but the greedy loop
clears it (`>= 20`) without merging: `combine_fishes` returns both fishes
unchanged instead of combining them as the claim requires. -/
theorem C7_counterexample :
    overlapCount fishC7A fishC7B = 20 ∧
    occureIdx [fishC7B, fishC7A] = some [(0, 29), (10, 29)] ∧
    buildMatrix [fishC7B, fishC7A] [(0, 29), (10, 29)] [[], []] (dpmOf 0 1) 10 5
      (argsortQ [((0 : ℕ) : ℚ), ((10 : ℕ) : ℚ)]) =
      some [[none, none], [some (101 / 100), none]] ∧
    combine_fishes [fishC7B, fishC7A] [0, 1] [[], []] 10 5 =
      some ([fishC7B, fishC7A], [[], []]) := by
  decide

/-- `getD` after `set` at the same index. -/
theorem getD_set_self {α : Type} (l : List α) (i : ℕ) (a d : α) :
    (l.set i a).getD i d = if i < l.length then a else d := by
  rw [List.getD_eq_getElem?_getD, List.getElem?_set, if_pos rfl]
  split_ifs with h <;> rfl

/-- Clearing a slot yields `none` at that slot (also out of bounds, where the
default applies). -/
theorem getD_set_none {α : Type} (l : List (Option α)) (c : ℕ) :
    (l.set c none).getD c none = none := by
  rw [List.getD_eq_getElem?_getD, List.getElem?_set, if_pos rfl]
  split_ifs with h <;> rfl

/-- `getD` after `set` at a different index. -/
theorem getD_set_ne {α : Type} {l : List α} {i j : ℕ} (hij : i ≠ j) {a d : α} :
    (l.set i a).getD j d = l.getD j d := by
  rw [List.getD_eq_getElem?_getD, List.getElem?_set_ne hij, ← List.getD_eq_getElem?_getD]

/-- `getD` of an all-`none` row is `none`. -/
theorem getD_replicate_none {α : Type} (n j : ℕ) :
    (List.replicate n (none : Option α)).getD j none = none := by
  rw [List.getD_eq_getElem?_getD, List.getElem?_replicate]
  split_ifs with h <;> rfl

/-- C7 (amended): the greedy step for the located minimal entry `(f, c)`
clears the entry without touching any fish or rise list exactly when the two
fishes have **at least** 20 simultaneously-valid samples (so an exactly-20
overlap, admitted by the build phase's `<= 20` test, is cleared too); when
the overlap is at most 19, fish `f` is merged into fish `c` (valid samples
copied over, `f` blanked, rises transferred, row `f` cleared). -/
theorem C7_amended (st : CombState) (f c : ℕ) (hfc : f ≠ c) (hcr : c < st.rises.length) :
    (20 ≤ overlapCount (st.fishes.getD f []) (st.fishes.getD c []) →
      (combineGreedyStep st f c).fishes = st.fishes ∧
      (combineGreedyStep st f c).rises = st.rises ∧
      ((combineGreedyStep st f c).matrix.getD f []).getD c none = none) ∧
    (overlapCount (st.fishes.getD f []) (st.fishes.getD c []) < 20 →
      (combineGreedyStep st f c).fishes.getD c [] =
        mergeFishInto (st.fishes.getD c []) (st.fishes.getD f []) ∧
      (combineGreedyStep st f c).fishes.getD f [] =
        List.replicate (st.fishes.getD f []).length (none : Option ℚ) ∧
      (combineGreedyStep st f c).rises.getD c [] = st.rises.getD c [] ++ st.rises.getD f [] ∧
      (combineGreedyStep st f c).rises.getD f [] = ([] : List Rise) ∧
      (∀ j, ((combineGreedyStep st f c).matrix.getD f []).getD j none = none)) := by
  constructor
  · intro hover
    unfold combineGreedyStep
    rw [if_pos hover]
    refine ⟨rfl, rfl, ?_⟩
    unfold clearEntry
    simp only []
    by_cases hf : f < st.matrix.length
    · rw [getD_set_self, if_pos hf]
      exact getD_set_none _ _
    · rw [getD_set_self, if_neg hf]
      rfl
  · intro hover
    unfold combineGreedyStep
    rw [if_neg (by omega)]
    refine ⟨?_, ?_, ?_, ?_, ?_⟩
    · simp only []
      rw [getD_set_ne hfc, getD_set_self]
      split_ifs with hc
      · rfl
      · unfold mergeFishInto
        rw [List.getD_eq_default _ _ (le_of_not_lt hc)]
        rfl
    · simp only []
      rw [getD_set_self, List.length_set]
      split_ifs with hf
      · rfl
      · rw [List.getD_eq_default _ _ (le_of_not_lt hf), List.length_nil, List.replicate_zero]
    · simp only []
      rw [getD_set_ne hfc, getD_set_self, if_pos hcr]
    · simp only []
      rw [getD_set_self]
      split_ifs <;> rfl
    · intro j
      simp only []
      rw [getD_set_self]
      split_ifs with hf
      · exact getD_replicate_none _ _
      · rfl

/-- Witness for C7 (amended): the exactly-20-overlap state of the C7
scenario is cleared with the fishes untouched; a 1-overlap toy state is
merged. -/
theorem C7_witness :
    ((combineGreedyStep ⟨[fishC7B, fishC7A], [[none, none], [some (101 / 100), none]], [[], []]⟩
        1 0).fishes = [fishC7B, fishC7A]) ∧
    ((combineGreedyStep ⟨[[some 1], [some 2]], [[none, none], [some 1, none]], [[], []]⟩
        1 0).fishes.getD 0 [] = mergeFishInto [some 1] [some 2]) :=
  ⟨((C7_amended _ 1 0 (by decide) (by decide)).1 (by decide)).1,
   ((C7_amended _ 1 0 (by decide) (by decide)).2 (by decide)).1⟩

/-- C3 counterexample.  At `dpm = 30` (`Δt = 2 s`), `detect_single_rise` on
`fishC3` accepts a rise and records start index 5 and end index 12 (first
conjunct).  Every gap between consecutive valid samples of the fish is below
3 minutes (`3 * dpm = 90` steps; second conjunct), so by the claim the
recorded start would have to be the accepted peak index `i` itself.  But
index 5 is no peak: index 7 is a valid sample within the next 10 seconds
(`5 + dpm/60*10 = 10`) whose frequency is not lower (third conjunct) — the
code shifted the start across a mere 4-second gap, because its gap threshold
is `dpm/60*3`, i.e. 3 *seconds*. -/
theorem C3_counterexample :
    detect_single_rise fishC3 (validIdx fishC3) (1 / 2) 30 =
      some (some ⟨5, 12, some 501, some 500⟩,
        (List.range 30).filter (fun k => decide (13 ≤ k))) ∧
    (pairDiffsFrom 0 (validIdx fishC3)).all (fun d => decide (d < 3 * 30)) = true ∧
    ((fval fishC3 7).isSome = true ∧ (7 : ℚ) < (5 : ℚ) + 30 / 60 * 10 ∧
      oGe (fval fishC3 7) (fval fishC3 5) = true) := by
  decide

/-- `getLast?` of a cons in terms of the tail's `getLast?`. -/
theorem getLast?_cons_eq {α : Type} (a : α) (l : List α) :
    (a :: l).getLast? = match l.getLast? with | some y => some y | none => some a := by
  rw [List.getLast?_cons]
  cases l.getLast? <;> rfl

/-- The masked-`[-1]` selection over the gap list equals the backward scan
of the specification-side start rule. -/
theorem bigGap_getLast_eq_scan (dpm : ℚ) (w : List ℕ) (prev : ℚ) :
    (((w.zip (pairDiffsFrom prev w)).filter (fun p => decide (p.2 ≥ dpm / 60 * 3))).getLast?).map
        Prod.fst = specStartScan dpm prev w := by
  induction w generalizing prev with
  | nil => rfl
  | cons x xs ih =>
    show ((((x, (x:ℚ) - prev) :: (xs.zip (pairDiffsFrom (x:ℚ) xs))).filter
        (fun p => decide (p.2 ≥ dpm / 60 * 3))).getLast?).map Prod.fst = _
    rw [List.filter_cons]
    unfold specStartScan
    have hih := ih (x:ℚ)
    by_cases hc : ((x:ℚ) - prev ≥ dpm / 60 * 3)
    · rw [if_pos (decide_eq_true hc), getLast?_cons_eq]
      cases hg : ((xs.zip (pairDiffsFrom (x:ℚ) xs)).filter
          (fun p => decide (p.2 ≥ dpm / 60 * 3))).getLast? with
      | none =>
        rw [hg] at hih
        simp only [Option.map_none'] at hih
        rw [← hih]
        show some x = if (x:ℚ) - prev ≥ dpm / 60 * 3 then some x else none
        rw [if_pos hc]
      | some p =>
        rw [hg] at hih
        simp only [Option.map_some'] at hih
        rw [← hih]
        rfl
    · rw [if_neg (fun h => hc (of_decide_eq_true h)), hih]
      cases specStartScan dpm (x:ℚ) xs with
      | none =>
        show none = if (x:ℚ) - prev ≥ dpm / 60 * 3 then some x else none
        rw [if_neg hc]
      | some y => rfl

/-- C3 (amended): whenever the accepted-rise start computation of
`detect_single_rise` succeeds, the recorded start index is exactly the one
the amended rule describes: the latest valid sample in the 10-second window
before the peak `a` that directly follows a gap of at least 3 *seconds*
(`dpm/60*3` steps) within the window, and `a` itself when no such gap
exists. -/
theorem C3_amended (nn : List ℕ) (a : ℕ) (dpm : ℚ) (s : ℕ)
    (h : riseStartShift nn a dpm = some s) : s = specRiseStart nn a dpm := by
  simp only [riseStartShift] at h
  simp only [specRiseStart]
  cases hhead : (nn.filter (fun (x : ℕ) =>
      decide ((a : ℚ) - dpm / 60 * 10 < (x : ℚ) ∧ (x : ℚ) ≤ (a : ℚ)))).head? with
  | none => rw [hhead] at h; exact absurd h (by simp)
  | some w0 =>
    rw [hhead] at h
    have hb := bigGap_getLast_eq_scan dpm (nn.filter (fun (x : ℕ) =>
      decide ((a : ℚ) - dpm / 60 * 10 < (x : ℚ) ∧ (x : ℚ) ≤ (a : ℚ)))) ((a : ℚ) - dpm / 60 * 10)
    cases hg : (((nn.filter (fun (x : ℕ) =>
        decide ((a : ℚ) - dpm / 60 * 10 < (x : ℚ) ∧ (x : ℚ) ≤ (a : ℚ)))).zip
        (pairDiffsFrom ((a : ℚ) - dpm / 60 * 10) (nn.filter (fun (x : ℕ) =>
        decide ((a : ℚ) - dpm / 60 * 10 < (x : ℚ) ∧ (x : ℚ) ≤ (a : ℚ)))))).filter
        (fun p => decide (p.2 ≥ dpm / 60 * 3))).getLast? with
    | none =>
      rw [hg] at h hb
      simp only [Option.map_none'] at hb
      injection h with h
      rw [← hb, ← h]
      rfl
    | some p =>
      rw [hg] at h hb
      simp only [Option.map_some'] at hb
      injection h with h
      rw [← hb, ← h]
      rfl

/-- Witness for C3 (amended) on the `fishC3` scenario: the shifted start 5
is the specification-side start. -/
theorem C3_witness : riseStartShift (validIdx fishC3) 7 30 = some 5 ∧
    (5 : ℕ) = specRiseStart (validIdx fishC3) 7 30 :=
  ⟨by decide, C3_amended (validIdx fishC3) 7 30 5 (by decide)⟩

/-- `assignOne` either assigns the candidate into a free (NaN) slot of an
existing fish or appends a new fish. -/
theorem assignOne_cases (T : ℕ) (tol : ℚ) (enu : ℕ) (st : SortState) (c : ℚ) :
    (∃ i, i < st.last_fish_fundamentals.length ∧
      ((st.fishes.getD i []).getD (enu + 1) none) = none ∧
      assignOne T tol enu st c = { st with
        fishes := st.fishes.set i ((st.fishes.getD i []).set (enu + 1) (some c)),
        last_fish_fundamentals := st.last_fish_fundamentals.set i c,
        end_nans := st.end_nans.set i 0 }) ∨
    assignOne T tol enu st c = appendNewFish T enu c st := by
  simp only [assignOne]
  split
  · exact Or.inr rfl
  · split
    · next i heq =>
      refine Or.inl ⟨i, ?_, ?_, rfl⟩
      · have hmem := List.mem_of_find?_eq_some heq
        obtain ⟨p, hp, hpe⟩ := List.mem_map.mp hmem
        have hplen := mem_argsortQ_lt hp
        rw [List.length_map] at hplen
        have hmt := hpe ▸ getD_mem hplen 0
        have hlt := mem_argsortQ_lt (List.mem_filter.mp hmt).1
        rwa [List.length_map] at hlt
      · have := List.find?_some heq
        exact Option.isNone_iff_eq_none.mp (by exact this)
    · exact Or.inr rfl

/-- A fresh fish array has the full length `T + 1`. -/
theorem length_newFishArray (T enu : ℕ) (c : ℚ) : (newFishArray T enu c).length = T + 1 := by
  unfold newFishArray
  rw [List.length_set, List.length_replicate]

/-- One candidate assignment preserves the fish-array lengths. -/
theorem assignOne_length {T : ℕ} {tol : ℚ} {enu : ℕ} {st : SortState} {c : ℚ}
    (inv : ∀ f ∈ st.fishes, f.length = T + 1) :
    ∀ f ∈ (assignOne T tol enu st c).fishes, f.length = T + 1 := by
  intro f hf
  rcases assignOne_cases T tol enu st c with ⟨i, hilt, hslot, heq⟩ | heq <;> rw [heq] at hf
  · simp only [] at hf
    by_cases hi : i < st.fishes.length
    · rcases List.mem_or_eq_of_mem_set hf with hmem | hset
      · exact inv f hmem
      · rw [hset, List.length_set]
        exact inv _ (getD_mem hi [])
    · rw [List.set_eq_of_length_le (le_of_not_lt hi)] at hf
      exact inv f hf
  · unfold appendNewFish at hf
    simp only [List.mem_append, List.mem_singleton] at hf
    rcases hf with hf | hf
    · exact inv f hf
    · rw [hf]; exact length_newFishArray T enu c

/-- `clean_up` keeps a subset of the fishes. -/
theorem clean_up_fst_subset (fishes : List Fish) (last : List ℚ) (endn : List ℕ) :
    ∀ f ∈ (clean_up fishes last endn).1, f ∈ fishes := by
  intro f hf
  unfold clean_up at hf
  simp only [] at hf
  obtain ⟨p, hp, hpe⟩ := List.mem_map.mp hf
  obtain ⟨a, b⟩ := p
  have hm := (List.mem_filter.mp hp).1
  have := List.of_mem_zip hm
  rw [← hpe]
  exact this.1

/-- A whole timestep of assignments preserves the fish-array lengths. -/
theorem assign_foldl_length {T : ℕ} {tol : ℚ} {enu : ℕ} (cands : List ℚ) (st : SortState)
    (inv : ∀ f ∈ st.fishes, f.length = T + 1) :
    ∀ f ∈ (cands.foldl (assignOne T tol enu) st).fishes, f.length = T + 1 := by
  induction cands generalizing st with
  | nil => exact inv
  | cons c cs ih => exact ih _ (assignOne_length inv)

/-- One main-loop iteration preserves the fish-array lengths. -/
theorem sortStep_length {T : ℕ} {prim tol dpm : ℚ} {st : SortState} {ec : ℕ × List ℚ}
    (inv : ∀ f ∈ st.fishes, f.length = T + 1) :
    ∀ f ∈ (sortStep T prim tol dpm st ec).fishes, f.length = T + 1 := by
  intro f hf
  unfold sortStep at hf
  by_cases hcln : (ec.1 : ℤ) = st.clean_up_idx
  · simp only [hcln, if_pos] at hf
    refine assign_foldl_length ec.2 _ ?_ f hf
    intro g hg
    exact inv g (clean_up_fst_subset _ _ _ g hg)
  · simp only [hcln, if_neg, if_false] at hf
    exact assign_foldl_length ec.2 _ inv f hf

/-- Every fish of the finished assignment run has length
`len(all_fundamentals) + 1`. -/
theorem sortRun_length (fund : List (List ℚ)) (dpm prim tol : ℚ) :
    ∀ f ∈ (sortRun fund dpm prim tol).fishes, f.length = fund.length + 1 := by
  unfold sortRun
  have main : ∀ (l : List (ℕ × List ℚ)) (st : SortState),
      (∀ f ∈ st.fishes, f.length = fund.length + 1) →
      ∀ f ∈ (l.foldl (sortStep fund.length prim tol dpm) st).fishes,
        f.length = fund.length + 1 := by
    intro l
    induction l with
    | nil => intro st inv; exact inv
    | cons e es ih => intro st inv; exact ih _ (sortStep_length inv)
  refine main _ _ ?_
  intro f hf
  simp only [initSortState, List.mem_singleton] at hf
  rw [hf, List.length_set, List.length_replicate]

/-- Every returned first-level trajectory has the candidate-sequence length
(the seed slot 0 having been stripped). -/
theorem first_level_length {fund : List (List ℚ)} {t0 t1 : ℚ} {rest : List ℚ} {prim tol : ℚ}
    {out : List Fish}
    (h : first_level_fish_sorting fund (t0 :: t1 :: rest) prim tol = some out) :
    ∀ g ∈ out, g.length = fund.length := by
  have hstr : ∀ g ∈ ((clean_up (sortRun fund (dpmOf t0 t1) prim tol).fishes
      (sortRun fund (dpmOf t0 t1) prim tol).last_fish_fundamentals
      (sortRun fund (dpmOf t0 t1) prim tol).end_nans).1.map (List.drop 1)),
      g.length = fund.length := by
    intro g hg
    obtain ⟨f, hf, hfe⟩ := List.mem_map.mp hg
    have hlen := sortRun_length fund (dpmOf t0 t1) prim tol f (clean_up_fst_subset _ _ _ f hf)
    rw [← hfe, List.length_drop, hlen]
    omega
  simp only [first_level_fish_sorting] at h
  split at h
  · exact absurd h (by simp)
  next f0 r heq =>
    rw [heq] at hstr
    split at h
    · exact absurd h (by simp)
    · split at h
      · injection h with h
        subst h
        intro g hg
        exact hstr g (List.mem_cons_of_mem _ hg)
      · injection h with h
        subst h
        exact hstr

/-- Clearing a suffix preserves the length. -/
theorem length_clearFrom (f : Fish) (c : ℕ) : (clearFrom f c).length = f.length := by
  unfold clearFrom
  rw [List.length_append, List.length_take, List.length_replicate]
  omega

/-- Extracting a suffix onto a NaN array preserves the length. -/
theorem length_takeSuffix (f : Fish) (c : ℕ) : (takeSuffix f c).length = f.length := by
  unfold takeSuffix
  rw [List.length_append, List.length_replicate, List.length_drop]
  omega

/-- All splits of one fish preserve the array length, for the mutated
original and for every new fragment. -/
theorem cutFish_length (f : Fish) (rs : List Rise) :
    (cutFish f rs).1.length = f.length ∧ ∀ g ∈ (cutFish f rs).2.1, g.length = f.length := by
  unfold cutFish
  have main : ∀ (l : List Rise) (acc : Fish × List Fish × List (List Rise)),
      acc.1.length = f.length → (∀ g ∈ acc.2.1, g.length = f.length) →
      ((l.foldl cutFishStep acc).1.length = f.length ∧
        ∀ g ∈ (l.foldl cutFishStep acc).2.1, g.length = f.length) := by
    intro l
    induction l with
    | nil => intro acc h1 h2; exact ⟨h1, h2⟩
    | cons r rrest ih =>
      intro acc h1 h2
      refine ih _ ?_ ?_
      · show (clearFrom acc.1 r.s).length = f.length
        rw [length_clearFrom]; exact h1
      · intro g hg
        rcases List.mem_append.mp hg with hm | hm
        · exact h2 g hm
        · rw [List.mem_singleton.mp hm, length_takeSuffix]; exact h1
  exact main rs.reverse (f, [], []) rfl (by intro g hg; cases hg)

/-- Lengths across the per-fish split results. -/
theorem cutProcessed_mem_length {fishes : List Fish} {all_rises : List (List Rise)} {L : ℕ}
    (inv : ∀ f ∈ fishes, f.length = L) :
    ∀ p ∈ cutProcessed fishes all_rises,
      p.1.length = L ∧ ∀ g ∈ p.2.1, g.length = L := by
  intro p hp
  obtain ⟨i, hi, hie⟩ := List.mem_map.mp hp
  have hiL : i < fishes.length := List.mem_range.mp hi
  have hfl : (fishes.getD i []).length = L := inv _ (getD_mem hiL [])
  constructor
  · rw [← hie, (cutFish_length _ _).1, hfl]
  · intro g hg
    rw [← hie] at hg
    rw [(cutFish_length _ _).2 g hg, hfl]

/-- `cut_at_rises` preserves the common trajectory length. -/
theorem cut_length {fishes : List Fish} {all_rises : List (List Rise)} {L : ℕ}
    (inv : ∀ f ∈ fishes, f.length = L) :
    ∀ g ∈ (cut_at_rises fishes all_rises).1, g.length = L := by
  have horig : ∀ g ∈ cutOriginals fishes all_rises, g.length = L := by
    intro g hg
    obtain ⟨p, hp, hpe⟩ := List.mem_map.mp hg
    rw [← hpe]
    exact (cutProcessed_mem_length inv p hp).1
  have hnew : ∀ g ∈ cutNewFishes fishes all_rises, g.length = L := by
    intro g hg
    obtain ⟨l, hl, hgl⟩ := List.mem_flatten.mp hg
    obtain ⟨p, hp, hpe⟩ := List.mem_map.mp hl
    have hp' : p ∈ cutProcessed fishes all_rises := List.mem_reverse.mp hp
    rw [← hpe] at hgl
    exact (cutProcessed_mem_length inv p hp').2 g hgl
  intro g hg
  simp only [cut_at_rises] at hg
  split at hg
  · exact horig g hg
  · simp only [] at hg
    rcases List.mem_append.mp hg with hm | hm
    · obtain ⟨i, hi, hie⟩ := List.mem_map.mp hm
      have hiL : i < (cutOriginals fishes all_rises).length :=
        List.mem_range.mp (List.mem_filter.mp hi).1
      rw [← hie]
      exact horig _ (getD_mem hiL [])
    · exact hnew g hm

/-- Merging preserves the target's length. -/
theorem mergeFishInto_length (b a : Fish) : (mergeFishInto b a).length = b.length := by
  unfold mergeFishInto
  rw [List.length_map, List.length_range]

/-- One greedy step preserves the trajectory lengths. -/
theorem combineGreedyStep_length {st : CombState} {L : ℕ} (f c : ℕ)
    (inv : ∀ g ∈ st.fishes, g.length = L) :
    ∀ g ∈ (combineGreedyStep st f c).fishes, g.length = L := by
  intro g hg
  unfold combineGreedyStep at hg
  split at hg
  · exact inv g hg
  · simp only [] at hg
    by_cases hf : f < (st.fishes.set c (mergeFishInto (st.fishes.getD c []) (st.fishes.getD f []))).length
    · rcases List.mem_or_eq_of_mem_set hg with hm | hset
      · by_cases hc : c < st.fishes.length
        · rcases List.mem_or_eq_of_mem_set hm with hm2 | hset2
          · exact inv g hm2
          · rw [hset2, mergeFishInto_length]
            exact inv _ (getD_mem hc [])
        · rw [List.set_eq_of_length_le (le_of_not_lt hc)] at hm
          exact inv g hm
      · rw [hset, List.length_replicate]
        rw [List.length_set] at hf
        exact inv _ (getD_mem hf [])
    · rw [List.set_eq_of_length_le (le_of_not_lt hf)] at hg
      by_cases hc : c < st.fishes.length
      · rcases List.mem_or_eq_of_mem_set hg with hm2 | hset2
        · exact inv g hm2
        · rw [hset2, mergeFishInto_length]
          exact inv _ (getD_mem hc [])
      · rw [List.set_eq_of_length_le (le_of_not_lt hc)] at hg
        exact inv g hg

/-- The greedy loop preserves the trajectory lengths. -/
theorem combineLoop_length {L : ℕ} (fuel : ℕ) (st : CombState)
    (inv : ∀ g ∈ st.fishes, g.length = L) :
    ∀ g ∈ (combineLoop fuel st).fishes, g.length = L := by
  induction fuel generalizing st with
  | zero => exact inv
  | succ n ih =>
    unfold combineLoop
    split
    · exact inv
    · split
      · exact inv
      · exact ih _ (combineGreedyStep_length _ _ inv)

/-- `combine_fishes` preserves the common trajectory length. -/
theorem combine_length {fishes out : List Fish} {all_times : List ℚ}
    {all_rises rs : List (List Rise)} {mtt fth : ℚ} {L : ℕ}
    (inv : ∀ f ∈ fishes, f.length = L)
    (h : combine_fishes fishes all_times all_rises mtt fth = some (out, rs)) :
    ∀ g ∈ out, g.length = L := by
  match all_times with
  | [] => exact absurd h (by simp [combine_fishes])
  | [t] => exact absurd h (by simp [combine_fishes])
  | t0 :: t1 :: rest =>
    simp only [combine_fishes] at h
    split at h
    · exact absurd h (by simp)
    · split at h
      · exact absurd h (by simp)
      · rw [Option.some_inj] at h
        obtain ⟨h1, h2⟩ := Prod.ext_iff.mp h
        subst h1
        intro g hg
        obtain ⟨i, hi, hie⟩ := List.mem_map.mp hg
        have hiL : i < (combineLoop (fishes.length * fishes.length + 1)
            ⟨fishes, _, all_rises⟩).fishes.length :=
          List.mem_range.mp (List.mem_filter.mp hi).1
        rw [← hie]
        exact combineLoop_length _ _ inv _ (getD_mem hiL [])

/-- `exclude_fishes` preserves the common trajectory length. -/
theorem exclude_length {fishes out : List Fish} {all_times : List ℚ} {m : ℚ} {L : ℕ}
    (inv : ∀ f ∈ fishes, f.length = L)
    (h : exclude_fishes fishes all_times m = some out) :
    ∀ g ∈ out, g.length = L := by
  match all_times with
  | [] => exact absurd h (by simp [exclude_fishes])
  | [t] => exact absurd h (by simp [exclude_fishes])
  | t0 :: t1 :: rest =>
    rw [exclude_eq_filter] at h
    injection h with h
    subst h
    intro g hg
    exact inv g (List.mem_filter.mp hg).1

/-- C8: at every transforming pipeline stage every trajectory in the
returned collection has the time-axis length: the assigner's output fishes
have the candidate-sequence length (equal to the time-axis length for a
well-formed input), and the filter, the splitter and the merger each map a
collection of length-`L` trajectories to a collection of length-`L`
trajectories.  (`detect_rises` returns rise records only and leaves the
trajectories untouched, so the invariant holds trivially at that stage.) -/
theorem C8_theorem :
    (∀ (fund : List (List ℚ)) (t0 t1 : ℚ) (rest : List ℚ) (prim tol : ℚ) (out : List Fish),
      (t0 :: t1 :: rest : List ℚ).length = fund.length →
      first_level_fish_sorting fund (t0 :: t1 :: rest) prim tol = some out →
      ∀ g ∈ out, g.length = (t0 :: t1 :: rest : List ℚ).length) ∧
    (∀ (fishes out : List Fish) (all_times : List ℚ) (m : ℚ) (L : ℕ),
      (∀ f ∈ fishes, f.length = L) →
      exclude_fishes fishes all_times m = some out → ∀ g ∈ out, g.length = L) ∧
    (∀ (fishes : List Fish) (all_rises : List (List Rise)) (L : ℕ),
      (∀ f ∈ fishes, f.length = L) →
      ∀ g ∈ (cut_at_rises fishes all_rises).1, g.length = L) ∧
    (∀ (fishes out : List Fish) (all_times : List ℚ) (all_rises rs : List (List Rise))
      (mtt fth : ℚ) (L : ℕ),
      (∀ f ∈ fishes, f.length = L) →
      combine_fishes fishes all_times all_rises mtt fth = some (out, rs) →
      ∀ g ∈ out, g.length = L) := by
  refine ⟨?_, ?_, ?_, ?_⟩
  · intro fund t0 t1 rest prim tol out hlen h g hg
    rw [hlen]
    exact first_level_length h g hg
  · intro fishes out all_times m L inv h
    exact exclude_length inv h
  · intro fishes all_rises L inv
    exact cut_length inv
  · intro fishes out all_times all_rises rs mtt fth L inv h
    exact combine_length inv h

/-- Witness for C8 at concrete inputs for all four stages. -/
theorem C8_witness :
    (∀ g ∈ [List.replicate 12 (some (1 / 10 : ℚ))],
      g.length = ([0, 1, 2, 3, 4, 5, 6, 7, 8, 9, 10, 11] : List ℚ).length) ∧
    (∀ g ∈ [[some (1 : ℚ)]], g.length = 1) ∧
    (∀ g ∈ (cut_at_rises [fishC2] risesC2).1, g.length = 40) ∧
    (∀ g ∈ [fishC7B, fishC7A], g.length = 30) :=
  ⟨C8_theorem.1 (List.replicate 12 [1 / 10]) 0 1 [2, 3, 4, 5, 6, 7, 8, 9, 10, 11] 1000000 (1 / 2)
      [List.replicate 12 (some (1 / 10))] (by decide) (by decide),
   C8_theorem.2.1 [[some 1]] [[some 1]] [0, 1] 0 1 (by decide) (by decide),
   C8_theorem.2.2.1 [fishC2] risesC2 40 (by decide),
   C8_theorem.2.2.2 [fishC7B, fishC7A] [fishC7B, fishC7A] [0, 1] [[], []] [[], []] 10 5 30
      (by decide) (by decide)⟩

/-- Setting a NaN slot to a value adds one valid sample. -/
theorem countValid_set_some {f : Fish} {k : ℕ} (hk : k < f.length)
    (hslot : f.getD k none = none) (c : ℚ) :
    countValid (f.set k (some c)) = countValid f + 1 := by
  induction f generalizing k with
  | nil => cases hk
  | cons x xs ih =>
    cases k with
    | zero =>
      rw [List.getD_cons_zero] at hslot
      subst hslot
      simp [countValid, List.set]
    | succ k =>
      rw [List.getD_cons_succ] at hslot
      have hk' : k < xs.length := by simpa using hk
      show countValid (x :: xs.set k (some c)) = countValid (x :: xs) + 1
      unfold countValid
      rw [List.filter_cons, List.filter_cons]
      cases hx : x.isSome
      · simp only [Bool.false_eq_true, if_false]
        exact ih hk' hslot
      · simp only [if_pos]
        rw [List.length_cons, List.length_cons]
        have := ih hk' hslot
        unfold countValid at this
        omega

/-- An all-NaN array has no valid samples. -/
theorem countValid_replicate_none (n : ℕ) :
    countValid (List.replicate n (none : Option ℚ)) = 0 := by
  unfold countValid
  rw [List.filter_eq_nil_iff.mpr]
  · rfl
  · intro a ha
    rw [List.eq_of_mem_replicate ha]
    decide

/-- A fresh fish array holds exactly one valid sample. -/
theorem countValid_newFishArray {T enu : ℕ} (h : enu < T) (c : ℚ) :
    countValid (newFishArray T enu c) = 1 := by
  unfold newFishArray
  rw [countValid_set_some (by rw [List.length_replicate]; omega) (getD_replicate_none _ _) c,
    countValid_replicate_none]

/-- Appending one fish adds its valid count. -/
theorem totalValid_append (fs : List Fish) (g : Fish) :
    totalValid (fs ++ [g]) = totalValid fs + countValid g := by
  unfold totalValid
  rw [List.map_append, List.sum_append]
  rfl

/-- Assigning into a NaN slot of one fish adds one to the overall total. -/
theorem totalValid_set_succ {fishes : List Fish} {i : ℕ} (hi : i < fishes.length)
    {k : ℕ} (hk : k < (fishes.getD i []).length)
    (hslot : (fishes.getD i []).getD k none = none) (c : ℚ) :
    totalValid (fishes.set i ((fishes.getD i []).set k (some c))) = totalValid fishes + 1 := by
  induction fishes generalizing i with
  | nil => cases hi
  | cons f rest ih =>
    cases i with
    | zero =>
      rw [List.getD_cons_zero] at hk hslot ⊢
      show totalValid ((f.set k (some c)) :: rest) = _
      unfold totalValid
      simp only [List.map_cons, List.sum_cons]
      rw [countValid_set_some hk hslot c]
      show countValid f + 1 + (rest.map countValid).sum = countValid f + (rest.map countValid).sum + 1
      omega
    | succ i =>
      rw [List.getD_cons_succ] at hk hslot ⊢
      have hi' : i < rest.length := by simpa using hi
      show totalValid (f :: rest.set i ((rest.getD i []).set k (some c))) = _
      unfold totalValid
      simp only [List.map_cons, List.sum_cons]
      have := ih hi' hk hslot
      unfold totalValid at this
      omega

/-- `set` at `k+1` commutes with dropping the first slot. -/
theorem drop_one_set {α : Type} (l : List α) (k : ℕ) (a : α) :
    (l.set (k + 1) a).drop 1 = (l.drop 1).set k a := by
  cases l with
  | nil => rfl
  | cons x xs => rfl

/-- `getD` after dropping the first slot. -/
theorem getD_drop_one {α : Type} (l : List α) (k : ℕ) (d : α) :
    (l.drop 1).getD k d = l.getD (k + 1) d := by
  cases l with
  | nil => rfl
  | cons x xs => rfl

/-- `getD` on the slot-0-stripped collection. -/
theorem getD_map_drop (fishes : List Fish) (i : ℕ) :
    (fishes.map (List.drop 1)).getD i [] = (fishes.getD i []).drop 1 := by
  rw [List.getD_eq_getElem?_getD, List.getElem?_map]
  by_cases hi : i < fishes.length
  · rw [List.getElem?_eq_getElem hi]
    simp only [Option.map_some', Option.getD_some]
    rw [List.getD_eq_getElem?_getD, List.getElem?_eq_getElem hi, Option.getD_some]
  · rw [List.getElem?_eq_none (by omega)]
    rw [List.getD_eq_default _ _ (le_of_not_lt hi)]
    rfl
/-- Stripping slot 0 of an all-NaN array. -/
theorem drop_one_replicate (T : ℕ) :
    (List.replicate (T + 1) (none : Option ℚ)).drop 1 = List.replicate T (none : Option ℚ) := rfl

/-- One candidate assignment preserves the loop invariant, never touches
`clean_up_idx`, and adds exactly one valid sample outside slot 0. -/
theorem assignOne_inv {T : ℕ} {tol : ℚ} {enu : ℕ} {st : SortState} {c : ℚ}
    (hT : enu < T) (inv : SortInv T st) :
    SortInv T (assignOne T tol enu st c) ∧
    (assignOne T tol enu st c).clean_up_idx = st.clean_up_idx ∧
    totalValid ((assignOne T tol enu st c).fishes.map (List.drop 1)) =
      totalValid (st.fishes.map (List.drop 1)) + 1 := by
  obtain ⟨invL, invl, inve, invne⟩ := inv
  rcases assignOne_cases T tol enu st c with ⟨i, hilt, hslot, heq⟩ | heq <;> rw [heq]
  · have hif : i < st.fishes.length := invl ▸ hilt
    have hflen : (st.fishes.getD i []).length = T + 1 := invL _ (getD_mem hif [])
    refine ⟨⟨?_, ?_, ?_, ?_⟩, rfl, ?_⟩
    · intro f hf
      simp only [] at hf
      rcases List.mem_or_eq_of_mem_set hf with hm | hs
      · exact invL f hm
      · rw [hs, List.length_set]; exact hflen
    · simp only [List.length_set]; exact invl
    · simp only [List.length_set]; exact inve
    · simp only []
      intro hnil
      have hlen0 := congrArg List.length hnil
      rw [List.length_set, List.length_nil] at hlen0
      exact invne (List.length_eq_zero.mp hlen0)
    · simp only [List.map_set]
      have hgd : (st.fishes.map (List.drop 1)).getD i [] = (st.fishes.getD i []).drop 1 :=
        getD_map_drop st.fishes i
      have hset : (List.set (st.fishes.getD i []) (enu + 1) (some c)).drop 1
          = ((st.fishes.getD i []).drop 1).set enu (some c) := drop_one_set _ _ _
      rw [hset, ← hgd]
      refine totalValid_set_succ ?_ ?_ ?_ c
      · rw [List.length_map]; exact hif
      · rw [hgd, List.length_drop, hflen]; omega
      · rw [hgd, getD_drop_one]; exact hslot
  · simp only [appendNewFish]
    refine ⟨⟨?_, ?_, ?_, ?_⟩, by trivial, ?_⟩
    · intro f hf
      rcases List.mem_append.mp hf with hm | hm
      · exact invL f hm
      · rw [List.mem_singleton.mp hm]; exact length_newFishArray T enu c
    · simp only [List.length_append, List.length_cons, List.length_nil]
      omega
    · simp only [List.length_append, List.length_cons, List.length_nil]
      omega
    · simp only []
      intro hnil
      exact absurd (congrArg List.length hnil) (by simp)
    · rw [List.map_append]
      show totalValid (_ ++ [(newFishArray T enu c).drop 1]) = _
      have hdrop : (newFishArray T enu c).drop 1 =
          (List.replicate T (none : Option ℚ)).set enu (some c) := by
        unfold newFishArray
        rw [drop_one_set, drop_one_replicate]
      rw [totalValid_append, hdrop,
        countValid_set_some (by rw [List.length_replicate]; exact hT) (getD_replicate_none _ _) c,
        countValid_replicate_none]

/-- A timestep's assignments add exactly the number of its candidates. -/
theorem assign_foldl_inv {T : ℕ} {tol : ℚ} {enu : ℕ} (hT : enu < T) (cands : List ℚ)
    (st : SortState) (inv : SortInv T st) :
    SortInv T (cands.foldl (assignOne T tol enu) st) ∧
    (cands.foldl (assignOne T tol enu) st).clean_up_idx = st.clean_up_idx ∧
    totalValid ((cands.foldl (assignOne T tol enu) st).fishes.map (List.drop 1)) =
      totalValid (st.fishes.map (List.drop 1)) + cands.length := by
  induction cands generalizing st with
  | nil => exact ⟨inv, rfl, rfl⟩
  | cons c cs ih =>
    obtain ⟨h1, h2, h3⟩ := @assignOne_inv T tol enu st c hT inv
    obtain ⟨g1, g2, g3⟩ := ih (assignOne T tol enu st c) h1
    simp only [List.foldl_cons]
    refine ⟨g1, by rw [g2, h2], ?_⟩
    rw [g3, h3, List.length_cons]
    omega

/-- The forget/count epilogue does not touch the fish arrays. -/
theorem forgetAndCount_inv {T : ℕ} {prim dpm : ℚ} {enu : ℕ} {st : SortState}
    (inv : SortInv T st) :
    SortInv T (forgetAndCount prim dpm enu st) ∧
    (forgetAndCount prim dpm enu st).fishes = st.fishes ∧
    (forgetAndCount prim dpm enu st).clean_up_idx = st.clean_up_idx := by
  obtain ⟨invL, invl, inve, invne⟩ := inv
  refine ⟨⟨invL, ?_, ?_, invne⟩, rfl, rfl⟩ <;>
    simp [forgetAndCount, List.length_map, List.length_range]

/-- A main-loop iteration whose index misses the scheduled clean-up adds
exactly its candidates to the stripped total. -/
theorem sortStep_inv {T : ℕ} {prim tol dpm : ℚ} {st : SortState} {ec : ℕ × List ℚ}
    (hc0 : (ec.1 : ℤ) ≠ st.clean_up_idx) (hT : ec.1 < T) (inv : SortInv T st) :
    SortInv T (sortStep T prim tol dpm st ec) ∧
    (sortStep T prim tol dpm st ec).clean_up_idx = st.clean_up_idx ∧
    totalValid ((sortStep T prim tol dpm st ec).fishes.map (List.drop 1)) =
      totalValid (st.fishes.map (List.drop 1)) + ec.2.length := by
  simp only [sortStep]
  rw [if_neg hc0]
  obtain ⟨a1, a2, a3⟩ := assign_foldl_inv hT ec.2 st inv
  obtain ⟨f1, f2, f3⟩ := @forgetAndCount_inv T prim dpm ec.1 _ a1
  refine ⟨f1, by rw [f3, a2], ?_⟩
  rw [f2, a3]

/-- When the first clean-up is scheduled past the end of the input
(`len(all_fundamentals) <= int(30*dpm)`), the finished run satisfies the
invariant and its stripped total equals the total number of input
candidates. -/
theorem sortRun_inv (fund : List (List ℚ)) (dpm prim tol : ℚ)
    (hcln : (fund.length : ℤ) ≤ intTrunc (30 * dpm)) :
    SortInv fund.length (sortRun fund dpm prim tol) ∧
    totalValid ((sortRun fund dpm prim tol).fishes.map (List.drop 1)) =
      totalCandidates fund := by
  unfold sortRun
  have main : ∀ (l : List (ℕ × List ℚ)) (st : SortState),
      (∀ p ∈ l, p.1 < fund.length) → SortInv fund.length st →
      st.clean_up_idx = intTrunc (30 * dpm) →
      SortInv fund.length (l.foldl (sortStep fund.length prim tol dpm) st) ∧
      (l.foldl (sortStep fund.length prim tol dpm) st).clean_up_idx = st.clean_up_idx ∧
      totalValid ((l.foldl (sortStep fund.length prim tol dpm) st).fishes.map (List.drop 1)) =
        totalValid (st.fishes.map (List.drop 1)) + (l.map (fun p => p.2.length)).sum := by
    intro l
    induction l with
    | nil => intro st _ inv _; exact ⟨inv, rfl, by simp⟩
    | cons e es ih =>
      intro st hbound inv hidx
      have hT : e.1 < fund.length := hbound e (List.mem_cons_self e es)
      have hne : (e.1 : ℤ) ≠ st.clean_up_idx := by
        rw [hidx]
        intro hcontra
        have : (e.1 : ℤ) < (fund.length : ℤ) := by exact_mod_cast hT
        omega
      obtain ⟨s1, s2, s3⟩ := sortStep_inv hne hT inv
      obtain ⟨g1, g2, g3⟩ := ih _ (fun p hp => hbound p (List.mem_cons_of_mem _ hp)) s1
        (by rw [s2, hidx])
      simp only [List.foldl_cons]
      refine ⟨g1, by rw [g2, s2], ?_⟩
      rw [g3, s3, List.map_cons, List.sum_cons]
      omega
  have hinit : SortInv fund.length (initSortState fund.length dpm) := by
    refine ⟨?_, rfl, rfl, by simp [initSortState]⟩
    intro f hf
    simp only [initSortState, List.mem_singleton] at hf
    rw [hf, List.length_set, List.length_replicate]
  have hinit_total :
      totalValid ((initSortState fund.length dpm).fishes.map (List.drop 1)) = 0 := by
    show totalValid [((List.replicate (fund.length + 1) (none : Option ℚ)).set 0
      (some 0)).drop 1] = 0
    have : ((List.replicate (fund.length + 1) (none : Option ℚ)).set 0 (some 0)).drop 1 =
        List.replicate fund.length (none : Option ℚ) := by
      rw [List.replicate_succ]
      rfl
    rw [this]
    show countValid (List.replicate fund.length (none : Option ℚ)) + 0 = 0
    rw [countValid_replicate_none]
  obtain ⟨m1, _, m3⟩ := main fund.enum (initSortState fund.length dpm)
    (fun p hp => List.fst_lt_of_mem_enum hp) hinit rfl
  refine ⟨m1, ?_⟩
  rw [m3, hinit_total]
  unfold totalCandidates
  have : fund.enum.map (fun p => p.2.length) = fund.map List.length := by
    have h1 : fund.enum.map (fun p => p.2.length) = (fund.enum.map Prod.snd).map List.length := by
      rw [List.map_map]
      rfl
    rw [h1, List.enum_map_snd]
  rw [this]
  omega

/-- `clean_up` is the identity (on the fish list) when every fish has more
than 10 valid samples. -/
theorem clean_up_id {fishes : List Fish} {last : List ℚ} {endn : List ℕ}
    (h2 : last.length = fishes.length) (h3 : endn.length = fishes.length)
    (hk : ∀ f ∈ fishes, 10 < countValid f) :
    (clean_up fishes last endn).1 = fishes := by
  unfold clean_up
  simp only []
  rw [List.filter_eq_self.mpr, List.map_fst_zip]
  · rw [List.length_zip, h2, h3]
    simp
  · intro p hp
    obtain ⟨a, b⟩ := p
    exact decide_eq_true (hk a (List.of_mem_zip hp).1)

/-- C1 (amended): conservation holds exactly when nothing is pruned.  For
any input on which (i) the periodic clean-up is never reached
(`len(all_fundamentals) <= int(30*dpm)`), (ii) the final `clean_up` finds
every fish with more than 10 valid samples, and (iii) the first-fish pop is
not triggered, `first_level_fish_sorting` returns the slot-0-stripped fish
arrays of the run and their total count of valid samples equals the total
count of input candidates — regardless of `prim_time_tolerance`.  (The C1
counterexample shows the equality fails as soon as `clean_up` prunes a
carrier of candidates.) -/
theorem C1_amended (fund : List (List ℚ)) (t0 t1 : ℚ) (rest : List ℚ) (prim tol : ℚ)
    (hne : 0 < fund.length)
    (hcln : (fund.length : ℤ) ≤ intTrunc (30 * dpmOf t0 t1))
    (hkeep : ∀ f ∈ (sortRun fund (dpmOf t0 t1) prim tol).fishes, 10 < countValid f)
    (hpop : ((((sortRun fund (dpmOf t0 t1) prim tol).fishes.map (List.drop 1)).headD []).headD
      none) ≠ some 0) :
    first_level_fish_sorting fund (t0 :: t1 :: rest) prim tol =
      some ((sortRun fund (dpmOf t0 t1) prim tol).fishes.map (List.drop 1)) ∧
    totalValid ((sortRun fund (dpmOf t0 t1) prim tol).fishes.map (List.drop 1)) =
      totalCandidates fund := by
  obtain ⟨⟨invL, invl, inve, invne⟩, htotal⟩ := sortRun_inv fund (dpmOf t0 t1) prim tol hcln
  refine ⟨?_, htotal⟩
  simp only [first_level_fish_sorting]
  rw [clean_up_id invl inve hkeep]
  cases hs : (sortRun fund (dpmOf t0 t1) prim tol).fishes.map (List.drop 1) with
  | nil =>
    exact absurd (List.map_eq_nil_iff.mp hs) invne
  | cons f0 r =>
    cases hf0 : f0 with
    | nil =>
      exfalso
      have hmem : f0 ∈ (sortRun fund (dpmOf t0 t1) prim tol).fishes.map (List.drop 1) := by
        rw [hs]; exact List.mem_cons_self _ _
      obtain ⟨g, hg, hge⟩ := List.mem_map.mp hmem
      have : g.length = fund.length + 1 := invL g hg
      have hlen := congrArg List.length hge
      rw [List.length_drop, this, hf0, List.length_nil] at hlen
      omega
    | cons x xs =>
      rw [hf0] at hs
      rw [hs] at hpop
      simp only [List.headD_cons] at hpop
      show (if x = some 0 then some r else some ((x :: xs) :: r)) = some ((x :: xs) :: r)
      rw [if_neg hpop]

/-- Witness for C1 (amended): twelve `0.1 Hz` candidates are all caught by
the seed fish, nothing is pruned, and the returned total is 12. -/
theorem C1_witness :
    first_level_fish_sorting fundC1W timesC1W 1000000 (1 / 2) =
      some ((sortRun fundC1W (dpmOf 0 1) 1000000 (1 / 2)).fishes.map (List.drop 1)) ∧
    totalValid ((sortRun fundC1W (dpmOf 0 1) 1000000 (1 / 2)).fishes.map (List.drop 1)) =
      totalCandidates fundC1W :=
  C1_amended fundC1W 0 1 [2, 3, 4, 5, 6, 7, 8, 9, 10, 11] 1000000 (1 / 2)
    (by decide) (by decide) (by decide) (by decide)


/-- The gap-shift start computation always returns a value when the peak
index is one of the window candidates and `dpm > 0` (even an empty diff list
falls back to `i` itself). -/
theorem riseStartShift_isSome (nn : List ℕ) (a : ℕ) (dpm : ℚ)
    (h : a ∈ nn) (hdpm : 0 < dpm) :
    (riseStartShift nn a dpm).isSome = true := by
  simp only [riseStartShift]
  have hmem : a ∈ nn.filter (fun (x : ℕ) =>
      decide ((a : ℚ) - dpm / 60 * 10 < (x : ℚ) ∧ (x : ℚ) ≤ (a : ℚ))) := by
    refine List.mem_filter.mpr ⟨h, decide_eq_true ⟨?_, le_refl _⟩⟩
    have : (0:ℚ) < dpm / 60 * 10 := by positivity
    linarith
  cases hh : (nn.filter (fun (x : ℕ) =>
      decide ((a : ℚ) - dpm / 60 * 10 < (x : ℚ) ∧ (x : ℚ) ≤ (a : ℚ)))).head? with
  | none =>
    exact absurd (List.head?_eq_none_iff.mp hh) (List.ne_nil_of_mem hmem)
  | some w0 =>
    cases (((nn.filter (fun (x : ℕ) =>
        decide ((a : ℚ) - dpm / 60 * 10 < (x : ℚ) ∧ (x : ℚ) ≤ (a : ℚ)))).zip
        (pairDiffsFrom ((a : ℚ) - dpm / 60 * 10) (nn.filter (fun (x : ℕ) =>
        decide ((a : ℚ) - dpm / 60 * 10 < (x : ℚ) ∧ (x : ℚ) ≤ (a : ℚ)))))).filter
        (fun p => decide (p.2 ≥ dpm / 60 * 3))).getLast? <;> rfl

/-- The inner rise-scan loop either stops or returns a found rise together
with the index list truncated after some candidate position below the given
bound. -/
theorem dsrInner_cases (fish : Fish) (nn : List ℕ) (th dpm : ℚ) (hdpm : 0 < dpm)
    (nlast i : ℕ) (hi : i < nn.length) (B : ℕ) (hB : B ≤ nn.length) :
    ∀ js, (∀ j ∈ js, j < B) →
      dsrInner fish nn th dpm nlast i js = .stop ∨
      ∃ r j, j < B ∧ dsrInner fish nn th dpm nlast i js = .found r (nn.drop (j + 1)) := by
  intro js
  induction js with
  | nil => intro _; exact Or.inl rfl
  | cons j rest ih =>
    intro hbound
    have hjB : j < B := hbound j (List.mem_cons_self j rest)
    have hjn : j < nn.length := lt_of_lt_of_le hjB hB
    simp only [dsrInner]
    split
    · exact Or.inl rfl
    · split
      · exact Or.inl rfl
      · have hmem2 : j ∈ (List.range nn.length).filter
            (fun p => decide ((nn.getD p 0 : ℚ) < (nn.getD j 0 : ℚ) + dpm / 60 * 30)) := by
          refine List.mem_filter.mpr ⟨List.mem_range.mpr hjn, decide_eq_true ?_⟩
          have : (0:ℚ) < dpm / 60 * 30 := by positivity
          linarith
        split
        · next hg =>
          exact absurd (List.getLast?_eq_none_iff.mp hg) (List.ne_nil_of_mem hmem2)
        · next h2 hg =>
          split
          · split
            · cases hrs : riseStartShift nn (nn.getD i 0) dpm with
              | none =>
                exfalso
                have := riseStartShift_isSome nn (nn.getD i 0) dpm (getD_mem hi 0) hdpm
                rw [hrs] at this
                exact absurd this (by simp)
              | some s =>
                exact Or.inr ⟨⟨s, nn.getD j 0, fval fish s, fval fish (nn.getD j 0)⟩,
                  j, hjB, rfl⟩
            · exact Or.inl rfl
          · exact ih (fun p hp => hbound p (List.mem_cons_of_mem _ hp))

/-- The outer rise-scan loop never errors: it returns a result whose
remaining index list is either the terminal singleton or a proper
truncation of `nn`. -/
theorem dsrOuter_success (fish : Fish) (nn : List ℕ) (th dpm : ℚ) (hdpm : 0 < dpm)
    (nlast : ℕ) (B : ℕ) (hB : B ≤ nn.length) :
    ∀ is, (∀ i ∈ is, i < B) →
      ∃ res, dsrOuter fish nn th dpm nlast is = some res ∧
        (res.2 = [nlast] ∨ ∃ j, j < B ∧ res.2 = nn.drop (j + 1)) := by
  intro is
  induction is with
  | nil => intro _; exact ⟨(none, [nlast]), rfl, Or.inl rfl⟩
  | cons i rest ih =>
    intro hbound
    have hiB : i < B := hbound i (List.mem_cons_self i rest)
    have hin : i < nn.length := lt_of_lt_of_le hiB hB
    have htail := fun p hp => hbound p (List.mem_cons_of_mem _ hp)
    have hmem : i ∈ (List.range nn.length).filter
        (fun p => decide ((nn.getD p 0 : ℚ) < (nn.getD i 0 : ℚ) + dpm / 60 * 10)) := by
      refine List.mem_filter.mpr ⟨List.mem_range.mpr hin, decide_eq_true ?_⟩
      have : (0:ℚ) < dpm / 60 * 10 := by positivity
      linarith
    simp only [dsrOuter]
    split
    · next hg =>
      exact absurd (List.getLast?_eq_none_iff.mp hg) (List.ne_nil_of_mem hmem)
    · next h hg =>
      split
      · exact ih htail
      · split
        · rcases dsrInner_cases fish nn th dpm hdpm nlast i hin B hB rest htail with
            hstop | ⟨r, j, hjB, hfound⟩
          · rw [hstop]
            exact ih htail
          · rw [hfound]
            exact ⟨(some r, nn.drop (j + 1)), rfl, Or.inr ⟨j, hjB, rfl⟩⟩
        · exact ih htail

/-- `detect_single_rise` succeeds on any nonempty valid-index list when
`dpm > 0`: the last index always survives the `c`-window filter, so every
truncation is proper. -/
theorem dsr_success (fish : Fish) (nn : List ℕ) (th dpm : ℚ) (hdpm : 0 < dpm)
    (hne : nn ≠ []) :
    ∃ res, detect_single_rise fish nn th dpm = some res ∧
      (res.2 = [nn.getLastD 0] ∨ ∃ j, j + 1 < nn.length ∧ res.2 = nn.drop (j + 1)) := by
  simp only [detect_single_rise]
  cases hl : nn.getLast? with
  | none => exact absurd (List.getLast?_eq_none_iff.mp hl) hne
  | some nlast =>
    have hc : (nn.filter (fun (x : ℕ) =>
        decide ((x : ℚ) ≤ (nlast : ℚ) - dpm / 60 * 10))).length ≤ nn.length - 1 := by
      conv_lhs => rw [← List.dropLast_append_getLast hne]
      rw [List.filter_append]
      have hlastval : nn.getLast hne = nlast := by
        have := List.getLast?_eq_getLast nn hne
        rw [hl] at this
        exact (Option.some_inj.mp this).symm
      have hfail : (([nn.getLast hne] : List ℕ).filter (fun (x : ℕ) =>
          decide ((x : ℚ) ≤ (nlast : ℚ) - dpm / 60 * 10))) = [] := by
        rw [List.filter_cons]
        rw [if_neg ?_]
        · rfl
        · rw [hlastval]
          intro hcontra
          have := of_decide_eq_true hcontra
          have hpos : (0:ℚ) < dpm / 60 * 10 := by positivity
          linarith
      rw [hfail, List.append_nil]
      calc (nn.dropLast.filter _).length ≤ nn.dropLast.length := List.length_filter_le _ _
        _ = nn.length - 1 := List.length_dropLast nn
    have hlen1 : 1 ≤ nn.length := by
      cases nn with
      | nil => exact absurd rfl hne
      | cons x xs => simp
    obtain ⟨res, hres, hcase⟩ := dsrOuter_success fish nn th dpm hdpm nlast
      ((nn.filter (fun (x : ℕ) => decide ((x : ℚ) ≤ (nlast : ℚ) - dpm / 60 * 10))).length)
      (le_trans hc (by omega))
      (List.range ((nn.filter (fun (x : ℕ) =>
        decide ((x : ℚ) ≤ (nlast : ℚ) - dpm / 60 * 10))).length))
      (fun i hi => List.mem_range.mp hi)
    refine ⟨res, hres, ?_⟩
    rcases hcase with hsing | ⟨j, hj, hdrop⟩
    · left
      rw [hsing]
      have : nn.getLastD 0 = nlast := by
        rw [List.getLastD_eq_getLast?, hl]
        rfl
      rw [this]
    · right
      exact ⟨j, by omega, hdrop⟩

/-- The per-fish while loop terminates without error given fuel exceeding
the index-list length: the loop entry condition fails on a singleton when
`dpm > 0`, and each pass strictly shortens the list. -/
theorem riseLoop_isSome (fish : Fish) (th dpm : ℚ) (hdpm : 0 < dpm) :
    ∀ fuel nn acc, nn ≠ [] → nn.length < fuel →
      (riseLoop fish th dpm fuel nn acc).isSome = true := by
  intro fuel
  induction fuel with
  | zero => intro nn acc _ hlt; omega
  | succ fuel ih =>
    intro nn acc hne hlt
    simp only [riseLoop]
    cases hL : nn.getLast? with
    | none => exact absurd (List.getLast?_eq_none_iff.mp hL) hne
    | some l =>
      cases hH : nn.head? with
      | none => exact absurd (List.head?_eq_none_iff.mp hH) hne
      | some h =>
        split
        · next l2 h2 e1 e2 =>
          injection e1 with e1
          injection e2 with e2
          subst e1 e2
          split
          · next hcond =>
            have hcond' := of_decide_eq_true hcond
            have hlen2 : 2 ≤ nn.length := by
              rcases nn with _ | ⟨a, _ | ⟨b, t⟩⟩
              · exact absurd rfl hne
              · simp only [List.getLast?_singleton, Option.some_inj] at hL
                simp only [List.head?_cons, Option.some_inj] at hH
                rw [← hL, ← hH] at hcond'
                have hpos : (0:ℚ) < dpm / 60 * 10 + 1 := by positivity
                simp only [sub_self] at hcond'
                linarith
              · simp only [List.length_cons]
                omega
            obtain ⟨⟨rd, nn2⟩, hres, hcase⟩ := dsr_success fish nn th dpm hdpm hne
            rw [hres]
            rcases hcase with hsing | ⟨j, hj, hdrop⟩
            · have hsing2 : nn2 = [nn.getLastD 0] := hsing
              refine ih nn2 (acc ++ [rd]) ?_ ?_
              · rw [hsing2]; exact List.cons_ne_nil _ _
              · rw [hsing2]
                simp only [List.length_singleton]
                omega
            · have hdrop2 : nn2 = nn.drop (j + 1) := hdrop
              refine ih nn2 (acc ++ [rd]) ?_ ?_
              · rw [hdrop2]
                have : 0 < (nn.drop (j + 1)).length := by
                  rw [List.length_drop]; omega
                exact List.ne_nil_of_length_pos this
              · rw [hdrop2, List.length_drop]
                omega
          · rfl
        · next heq => exact (heq l h rfl rfl).elim

/-- The number of valid indices of a fish is its valid-sample count. -/
theorem validIdx_length (f : Fish) : (validIdx f).length = countValid f := by
  rw [validIdx, countValid, ← range_filter_map_getD f none Option.isSome,
    List.length_map]

/-- A fish with no valid sample makes the per-fish rise detection fail:
`non_nan_idx` is empty, so reading the loop condition raises `IndexError`
(modelled as `none`). -/
theorem detectRisesFish_none (fish : Fish) (th dpm : ℚ)
    (h : countValid fish = 0) : detectRisesFish fish th dpm = none := by
  have hnil : validIdx fish = [] :=
    List.length_eq_zero.mp (by rw [validIdx_length, h])
  simp only [detectRisesFish, hnil]
  rfl

/-- A fish with at least one valid sample is processed without error by the
per-fish rise detection (when `dpm > 0`). -/
theorem detectRisesFish_isSome (fish : Fish) (th dpm : ℚ) (hdpm : 0 < dpm)
    (h : 0 < countValid fish) : (detectRisesFish fish th dpm).isSome = true := by
  have hne : validIdx fish ≠ [] := by
    intro hc
    rw [← validIdx_length, hc] at h
    simp at h
  have hloop := riseLoop_isSome fish th dpm hdpm ((validIdx fish).length + 1)
    (validIdx fish) [] hne (by omega)
  simp only [detectRisesFish]
  cases hr : riseLoop fish th dpm ((validIdx fish).length + 1) (validIdx fish) [] with
  | none => rw [hr] at hloop; simp at hloop
  | some fr => rfl

/-- The `detect_rises` fold propagates an error accumulator. -/
theorem riseFold_none (th dpm : ℚ) :
    ∀ l : List Fish, l.foldl (fun acc fish =>
      match acc with
      | none => none
      | some rs =>
        match detectRisesFish fish th dpm with
        | none => none
        | some fr => some (rs ++ [fr])) none = none := by
  intro l
  induction l with
  | nil => rfl
  | cons a t ih => exact ih

/-- If some fish in the list has no valid sample, the `detect_rises` fold
errors regardless of the accumulator. -/
theorem riseFold_bad (th dpm : ℚ) :
    ∀ l : List Fish, (∃ f ∈ l, countValid f = 0) → ∀ acc,
      l.foldl (fun acc fish =>
        match acc with
        | none => none
        | some rs =>
          match detectRisesFish fish th dpm with
          | none => none
          | some fr => some (rs ++ [fr])) acc = none := by
  intro l
  induction l with
  | nil => rintro ⟨f, hf, _⟩; exact absurd hf (List.not_mem_nil f)
  | cons a t ih =>
    rintro ⟨f, hf, hf0⟩ acc
    rcases List.mem_cons.mp hf with rfl | hft
    · simp only [List.foldl_cons]
      cases acc with
      | none => exact riseFold_none th dpm t
      | some rs =>
        rw [detectRisesFish_none f th dpm hf0]
        exact riseFold_none th dpm t
    · simp only [List.foldl_cons]
      exact ih ⟨f, hft, hf0⟩ _

/-- If every fish in the list has a valid sample and `dpm > 0`, the
`detect_rises` fold succeeds from any good accumulator. -/
theorem riseFold_good (th dpm : ℚ) (hdpm : 0 < dpm) :
    ∀ l : List Fish, (∀ f ∈ l, 0 < countValid f) → ∀ rs,
      (l.foldl (fun acc fish =>
        match acc with
        | none => none
        | some rs =>
          match detectRisesFish fish th dpm with
          | none => none
          | some fr => some (rs ++ [fr])) (some rs)).isSome = true := by
  intro l
  induction l with
  | nil => intro _ rs; rfl
  | cons a t ih =>
    intro hall rs
    have ha := hall a (List.mem_cons_self a t)
    have hsome := detectRisesFish_isSome a th dpm hdpm ha
    simp only [List.foldl_cons]
    cases hd : detectRisesFish a th dpm with
    | none => rw [hd] at hsome; simp at hsome
    | some fr => exact ih (fun f hf => hall f (List.mem_cons_of_mem a hf)) (rs ++ [fr])

/-- C10: `detect_rises` is well-defined exactly on collections whose every
trajectory has at least one valid sample: with a positive `dpm`, a trajectory
with zero valid samples makes the valid-index lookup raise `IndexError`
(result `none`), whereas if every trajectory has at least one valid sample
the whole call returns normally. -/
theorem C10_theorem (fishes : List Fish) (t0 t1 : ℚ) (rest : List ℚ) (th : ℚ)
    (hdpm : 0 < dpmOf t0 t1) :
    ((∃ f ∈ fishes, countValid f = 0) →
      detect_rises fishes (t0 :: t1 :: rest) th = none) ∧
    ((∀ f ∈ fishes, 0 < countValid f) →
      (detect_rises fishes (t0 :: t1 :: rest) th).isSome = true) := by
  constructor
  · intro hbad
    simp only [detect_rises]
    exact riseFold_bad th (dpmOf t0 t1) fishes hbad (some [])
  · intro hgood
    simp only [detect_rises]
    exact riseFold_good th (dpmOf t0 t1) hdpm fishes hgood []

/-- Witness for C10: on `[0, 2]` seconds (`dpm = 30 > 0`), an all-absent
trajectory yields `none` and an all-valid trajectory yields a result. -/
theorem C10_witness :
    detect_rises [[none, none]] [0, 2] (1 / 2) = none ∧
    (detect_rises [[some 500, some 500]] [0, 2] (1 / 2)).isSome = true :=
  ⟨(C10_theorem [[none, none]] 0 2 [] (1 / 2) (by decide)).1 (by decide),
   (C10_theorem [[some 500, some 500]] 0 2 [] (1 / 2) (by decide)).2 (by decide)⟩

end Thunderfish
